import Mathlib

/-!
Verification of the tomplate compile-time template-composition engine.

The definitions below are a shallow embedding of the Rust sources:
  * `tomplate-macros/src/engines/simple.rs` (plain substitution),
  * `tomplate-macros/src/engines/mod.rs`    (engine dispatch),
  * `tomplate-macros/src/block.rs`          (composition blocks),
  * `tomplate-macros/src/scope.rs`          (block scope),
  * `tomplate-macros/src/lib.rs`            (direct invocations),
  * `tomplate-macros/src/eager.rs`          (eager token rewriting).

Strings are modelled as Lean `String`/`List Char`.  The iteration order of a
Rust `HashMap` is unspecified; wherever the code iterates one, the embedding
takes the ordering as an explicit input (an association list, or an `ord`
reordering function), so that order-(in)dependence can be stated and settled.
Recursion that is unbounded in Rust (template nesting) is fuel-indexed; the
fuel-0 result is an error, mirroring a recursion-guard failure, and every
theorem either holds for all fuels or quantifies the fuel explicitly.
-/

namespace Tomplate

/-- The character `{`, written via its code point. -/
def lbrace : Char := Char.ofNat 123

/-- The character `}`, written via its code point. -/
def rbrace : Char := Char.ofNat 125

/-- The character `'`, used by the Rust error messages. -/
def squote : Char := Char.ofNat 39

/-- A list of characters containing neither `{` nor `}`. -/
def BraceFree (s : List Char) : Prop := ∀ c ∈ s, c ≠ lbrace ∧ c ≠ rbrace

instance (s : List Char) : Decidable (BraceFree s) := by
  unfold BraceFree; infer_instance

/-- The delimited placeholder pattern `{key}` built by
`format!("\x7b\x7b{}\x7d\x7d", key)` in `simple.rs`. -/
def phPat (key : String) : List Char := lbrace :: key.data ++ [rbrace]

/-- Fuel-indexed worker for `replaceAll`; `fuel = s.length` always suffices. -/
def replGo (pat rep : List Char) : Nat → List Char → List Char
  | _, [] => []
  | 0, s => s
  | fuel+1, c :: rest =>
    if pat.isPrefixOf (c :: rest) then
      rep ++ replGo pat rep fuel (List.drop (pat.length - 1) rest)
    else
      c :: replGo pat rep fuel rest

/-- Rust `str::replace`: replace every leftmost, non-overlapping occurrence of
`pat` by `rep`.  All call sites in the source pass the non-empty pattern
`\x7bkey\x7d`; for an empty pattern the definition is the identity. -/
def replaceAll (pat rep s : List Char) : List Char :=
  if pat.isEmpty then s else replGo pat rep s.length s

/-- The sequential substitution loop of `simple.rs`
(`for (key, value) in params { result = result.replace(...) }`), with the
map's iteration order made explicit as the list order. -/
def seqReplace (params : List (String × String)) (s : List Char) : List Char :=
  params.foldl (fun acc kv => replaceAll (phPat kv.1) kv.2.data acc) s

/-- The placeholder scanner of `simple.rs`: on `{`, collect characters until
the next `}`; emit the collected name.  `st = none` means "outside a
placeholder", `st = some acc` carries the (reversed) collected name.
This variant emits every non-empty name. -/
def scanPH : List Char → Option (List Char) → List String
  | [], _ => []
  | c :: rest, none =>
    if c = lbrace then scanPH rest (some []) else scanPH rest none
  | c :: rest, some acc =>
    if c = rbrace then
      if acc.isEmpty then scanPH rest none
      else String.mk acc.reverse :: scanPH rest none
    else scanPH rest (some (c :: acc))

/-- All non-empty delimited placeholder names occurring in `s`, in the order
the scanner of `simple.rs` visits them. -/
def placeholders (s : List Char) : List String := scanPH s none

/-- The scanner of `simple.rs` as written: emit a collected name only when it
is non-empty and not a key of `params`
(`!var_name.is_empty() && !params.contains_key(&var_name)`). -/
def scanUnsub (keys : List String) : List Char → Option (List Char) → List String
  | [], _ => []
  | c :: rest, none =>
    if c = lbrace then scanUnsub keys rest (some []) else scanUnsub keys rest none
  | c :: rest, some acc =>
    if c = rbrace then
      if acc.isEmpty || keys.contains (String.mk acc.reverse) then
        scanUnsub keys rest none
      else
        String.mk acc.reverse :: scanUnsub keys rest none
    else scanUnsub keys rest (some (c :: acc))

namespace Simple

/-- `simple::process`: substitute every `\x7bkey\x7d` for each param in
iteration order, then scan for remaining unsubstituted variables and fail if
any are found.  The list order of `params` is the `HashMap` iteration order. -/
def process (template : String) (params : List (String × String)) :
    Except String String :=
  let result : String :=
    String.mk (seqReplace params template.data)
  if result.data.contains lbrace && result.data.contains rbrace then
    let unsubstituted := scanUnsub (params.map Prod.fst) result.data none
    if unsubstituted.isEmpty then
      .ok result
    else
      .error ("Template contains unsubstituted variables: " ++
        String.intercalate ", " unsubstituted)
  else
    .ok result

end Simple

/-- First parameter whose delimited pattern is a prefix of `s`. -/
def findMatch (M : List (String × String)) (s : List Char) :
    Option (String × String) :=
  M.find? (fun kv => (phPat kv.1).isPrefixOf s)

/-- Fuel-indexed worker for `substAll`. -/
def substGo (M : List (String × String)) : Nat → List Char → List Char
  | _, [] => []
  | 0, s => s
  | fuel+1, c :: rest =>
    match findMatch M (c :: rest) with
    | some kv => kv.2.data ++ substGo M fuel (List.drop (kv.1.length + 1) rest)
    | none => c :: substGo M fuel rest

/-- Simultaneous verbatim substitution: every occurrence of `\x7bkey\x7d` in
`s` is replaced by the mapped value, each value inserted verbatim and left
untouched by the other substitutions.  This is the result the specification
describes for a covering parameter mapping. -/
def substAll (M : List (String × String)) (s : List Char) : List Char :=
  substGo M s.length s

/-- A registry entry (`tomplate-build/src/types.rs` `Template`): the pattern
text and the optional engine name.  The free-form metadata map is preserved
but unused by the core, so it is omitted here. -/
structure Template where
  template : String
  engine : Option String
  deriving Repr, DecidableEq

/-- The amalgamated registry: a read-only mapping from template name to
`Template`, modelled as an association list. -/
def Registry := List (String × Template)

/-- `HashMap::get` on the registry. -/
def Registry.get (reg : Registry) (name : String) : Option Template :=
  (List.find? (fun kv => kv.1 = name) reg).map Prod.snd

namespace Engines

/-- `engines::process` (`engines/mod.rs`): parse the engine name and
dispatch.  The handlebars/tera/minijinja backends are feature-gated external
libraries; this models the default build in which only the simple engine is
compiled in, so any other non-empty name fails with the
`Unknown or disabled template engine` error of `Engine::from_str`. -/
def process (engine template : String) (params : List (String × String)) :
    Except String String :=
  if engine = "simple" ∨ engine = "" then Simple.process template params
  else .error ("Unknown or disabled template engine: " ++ engine)

end Engines

/- The composition-block AST of `tomplate-macros/src/parser.rs`.  The only
`TemplateSource` constructor is `Name(String)`, so the source collapses to a
`String`. -/

mutual
/-- `parser.rs` `TemplateCall`: a `tomplate!(source, key = value, ...)`
invocation inside a block. -/
inductive TemplateCall where
  | mk (source : String) (params : List (String × ParamValue))
  deriving Repr
/-- `parser.rs` `ParamValue`: a literal, a reference to a `let` binding, or a
nested `tomplate!` call. -/
inductive ParamValue where
  | literal (s : String)
  | var (n : String)
  | nested (c : TemplateCall)
  deriving Repr
end

/-- The invocation's source string. -/
def TemplateCall.source : TemplateCall → String
  | .mk s _ => s

/-- The invocation's parameter sequence, in source order. -/
def TemplateCall.params : TemplateCall → List (String × ParamValue)
  | .mk _ p => p

/-- `parser.rs` `Statement`: a `let` binding or an exported `const`.
Attributes are opaque to the resolver and modelled as strings. -/
inductive Statement where
  | letStmt (name : String) (value : TemplateCall)
  | constStmt (attrs : List String) (name : String) (value : TemplateCall)
  deriving Repr

/-- The name bound by a statement. -/
def Statement.name : Statement → String
  | .letStmt n _ => n
  | .constStmt _ n _ => n

/-- The invocation bound by a statement. -/
def Statement.value : Statement → TemplateCall
  | .letStmt _ v => v
  | .constStmt _ _ v => v

/-- `parser.rs` `CompositionBlock`: an ordered sequence of statements. -/
structure CompositionBlock where
  statements : List Statement
  deriving Repr

mutual
/-- All `Variable` reference names occurring in an invocation, including
inside nested invocations (used to state the scope claims). -/
def callVars : TemplateCall → List String
  | .mk _ ps => paramsVars ps
def paramsVars : List (String × ParamValue) → List String
  | [] => []
  | (_, v) :: rest => valueVars v ++ paramsVars rest
def valueVars : ParamValue → List String
  | .literal _ => []
  | .var n => [n]
  | .nested c => callVars c
end

/-- `scope.rs` `Export`: an exported const declaration. -/
structure Export where
  attrs : List String
  name : String
  value : String
  deriving Repr, DecidableEq

/-- `scope.rs` `Scope`: block-local `let` bindings and the ordered export
list.  `locals` models the `HashMap` (lookup finds the most recent insert). -/
structure Scope where
  locals : List (String × String)
  exports : List Export
  deriving Repr

/-- `Scope::new`. -/
def Scope.new : Scope := ⟨[], []⟩

/-- `Scope::add_local`. -/
def Scope.add_local (s : Scope) (name value : String) : Scope :=
  { s with locals := (name, value) :: s.locals }

/-- `Scope::get_local`. -/
def Scope.get_local (s : Scope) (name : String) : Option String :=
  (s.locals.find? (fun kv => kv.1 = name)).map Prod.snd

/-- `Scope::add_export`. -/
def Scope.add_export (s : Scope) (attrs : List String) (name value : String) :
    Scope :=
  { s with exports := s.exports ++ [⟨attrs, name, value⟩] }

/-- The `Undefined variable: 'name'` message of `block.rs`. -/
def undefinedVarMsg (n : String) : String :=
  "Undefined variable: " ++ squote.toString ++ n ++ squote.toString

/-- The `Duplicate definition of 'name'` message of `block.rs`. -/
def duplicateMsg (n : String) : String :=
  "Duplicate definition of " ++ squote.toString ++ n ++ squote.toString

mutual
/-- `block.rs` `validate_references`: every `Variable` reference in the call
must be contained in `defined`, recursing into nested calls. -/
def validate_references : TemplateCall → List String → Except String Unit
  | .mk _ ps, defined => validate_params ps defined
/-- The parameter loop of `validate_references`. -/
def validate_params : List (String × ParamValue) → List String →
    Except String Unit
  | [], _ => .ok ()
  | (_, v) :: rest, defined =>
    match v with
    | .var name =>
      if defined.contains name then validate_params rest defined
      else .error (undefinedVarMsg name)
    | .nested c =>
      match validate_references c defined with
      | .ok _ => validate_params rest defined
      | .error e => .error e
    | .literal _ => validate_params rest defined
end

/-- The statement loop of `block.rs` `validate_block`, carrying the running
`defined_names` and `let_names` sets (as lists; only membership is used).
Note that for a `let` the name is inserted into `let_names` *before* its
references are validated, exactly as in the source. -/
def validate_block_go : List Statement → List String → List String →
    Except String Unit
  | [], _, _ => .ok ()
  | .letStmt name value :: rest, definedNames, letNames =>
    if definedNames.contains name then .error (duplicateMsg name)
    else
      match validate_references value (name :: letNames) with
      | .ok _ => validate_block_go rest (name :: definedNames) (name :: letNames)
      | .error e => .error e
  | .constStmt _ name value :: rest, definedNames, letNames =>
    if definedNames.contains name then .error (duplicateMsg name)
    else
      match validate_references value letNames with
      | .ok _ => validate_block_go rest (name :: definedNames) letNames
      | .error e => .error e

/-- `block.rs` `validate_block`. -/
def validate_block (block : CompositionBlock) : Except String Unit :=
  validate_block_go block.statements [] []

/-- `HashMap::insert` on the resolved-parameter map: replace the value of an
existing key in place, otherwise add the entry.  The list order is the
insertion order of first writes; the unspecified iteration order is applied
separately (see `process_template_call`). -/
def mapInsert (m : List (String × String)) (k v : String) :
    List (String × String) :=
  if m.any (fun kv => kv.1 = k) then
    m.map (fun kv => if kv.1 = k then (k, v) else kv)
  else m ++ [(k, v)]

mutual
/-- `block.rs` `process_template_call`: select pattern and engine from the
registry (inline fallback), resolve every parameter, and render.  `ord`
models the unspecified iteration order of the resolved-parameter `HashMap`:
it is applied to the map contents before the engine iterates them, and any
permutation-producing function is a faithful instantiation. -/
def process_template_call (reg : Registry)
    (ord : List (String × String) → List (String × String)) :
    TemplateCall → Scope → Except String String
  | .mk source ps, scope =>
    match resolve_params reg ord ps scope [] with
    | .error e => .error e
    | .ok resolved =>
      match reg.get source with
      | some t => Engines.process (t.engine.getD "simple") t.template (ord resolved)
      | none => Engines.process "simple" source (ord resolved)
/-- The parameter loop of `process_template_call`, accumulating the resolved
map. -/
def resolve_params (reg : Registry)
    (ord : List (String × String) → List (String × String)) :
    List (String × ParamValue) → Scope → List (String × String) →
    Except String (List (String × String))
  | [], _, acc => .ok acc
  | (key, v) :: rest, scope, acc =>
    match resolve_value reg ord v scope with
    | .error e => .error e
    | .ok rv => resolve_params reg ord rest scope (mapInsert acc key rv)
/-- Resolution of one parameter value: `Literal` is itself, `Variable` is a
scope lookup, `Nested` recurses. -/
def resolve_value (reg : Registry)
    (ord : List (String × String) → List (String × String)) :
    ParamValue → Scope → Except String String
  | .literal s, _ => .ok s
  | .var name, scope =>
    match scope.get_local name with
    | some v => .ok v
    | none => .error (undefinedVarMsg name)
  | .nested c, scope => process_template_call reg ord c scope
end

/-- The statement loop of `block.rs` `process_block`. -/
def process_block_go (reg : Registry)
    (ord : List (String × String) → List (String × String)) :
    List Statement → Scope → Except String Scope
  | [], scope => .ok scope
  | .letStmt name value :: rest, scope =>
    match process_template_call reg ord value scope with
    | .error e => .error e
    | .ok resolved => process_block_go reg ord rest (scope.add_local name resolved)
  | .constStmt attrs name value :: rest, scope =>
    match process_template_call reg ord value scope with
    | .error e => .error e
    | .ok resolved =>
      process_block_go reg ord rest (scope.add_export attrs name resolved)

/-- `block.rs` `process_block`: validate, then evaluate every statement in
order.  The observable output of `scope.generate_output()` is one `const`
declaration per export, in export order, so the result is modelled as the
export list. -/
def process_block (reg : Registry)
    (ord : List (String × String) → List (String × String))
    (block : CompositionBlock) : Except String (List Export) :=
  match validate_block block with
  | .error e => .error e
  | .ok _ =>
    match process_block_go reg ord block.statements Scope.new with
    | .error e => .error e
    | .ok final => .ok final.exports

/-! ## The direct-invocation path (`lib.rs`) and the eager rewriter
(`eager.rs`).

Token streams are modelled by `TokenTree` below.  Nesting in the direct path
goes through re-parsing stored token streams, so the mutually recursive
functions are fuel-indexed; every recursive call decrements the fuel, fuel 0
reports a recursion-limit error (the depth guard the spec asks for), and for
acyclic input a fuel of the token-stream size plus nesting depth suffices. -/

/-- The error reported when the fuel runs out. -/
def recursionLimitMsg : String := "tomplate recursion limit exceeded"

/-- Literal token kinds, as far as the core inspects them: the string *value*
for string literals (`syn::LitStr::value`), and the source text for integer
and float literals (`to_string`). -/
inductive LitTok where
  | str (s : String)
  | int (s : String)
  | float (s : String)
  deriving Repr, DecidableEq

/-- `proc_macro2::Delimiter`. -/
inductive Delim where
  | paren | braceDelim | bracket | noneDelim
  deriving Repr, DecidableEq

/-- `proc_macro2::TokenTree`: identifiers, punctuation, literals and
delimited groups.  Punct spacing is not observable by the modelled code. -/
inductive TokenTree where
  | ident (s : String)
  | punct (c : Char)
  | litTok (l : LitTok)
  | group (d : Delim) (ts : List TokenTree)
  deriving Repr

/-- `lib.rs` `ParamValue` (direct path): a literal canonicalised to a string,
or a nested `tomplate!` call whose argument tokens are re-parsed at use. -/
inductive DirectParam where
  | literal (s : String)
  | macroCall (args : List TokenTree)
  deriving Repr

/-- `lib.rs` `TomplateInput`. -/
structure TomplateInput where
  template_name : String
  params : List (String × DirectParam)
  deriving Repr

/-- One parameter value of the direct grammar.  Returns the parsed value and
the remaining tokens.  Follows `lib.rs`: literals of string/int/float/bool
kind become `Literal`, a `tomplate! (...)` macro expression becomes
`Macro`, and anything else (bare identifiers included) is rejected. -/
def parseDirectValue : List TokenTree → Except String (DirectParam × List TokenTree)
  | .litTok (.str s) :: rest => .ok (.literal s, rest)
  | .litTok (.int s) :: rest => .ok (.literal s, rest)
  | .litTok (.float s) :: rest => .ok (.literal s, rest)
  | .ident "true" :: rest => .ok (.literal "true", rest)
  | .ident "false" :: rest => .ok (.literal "false", rest)
  | .ident "tomplate" :: .punct c :: .group _ ts :: rest =>
    if c = '!' then .ok (.macroCall ts, rest)
    else .error "Expected literal value or tomplate! macro call"
  | _ => .error "Expected literal value or tomplate! macro call"

/-- One `key = value` argument of the direct grammar. -/
def parseDirectAssign : List TokenTree →
    Except String (String × DirectParam × List TokenTree)
  | .ident key :: .punct c :: rest =>
    if c = '=' then
      match parseDirectValue rest with
      | .error e => .error e
      | .ok (v, rest2) => .ok (key, v, rest2)
    else .error "Expected key = value syntax"
  | _ => .error "Expected key = value syntax"

/-- The `Punctuated::parse_terminated` loop over `key = value` arguments;
trailing commas permitted.  Fuel-indexed for structural recursion;
`fuel = ts.length` always suffices. -/
def parseDirectParamsGo : Nat → List TokenTree →
    Except String (List (String × DirectParam))
  | _, [] => .ok []
  | 0, _ => .error recursionLimitMsg
  | fuel+1, ts =>
    match parseDirectAssign ts with
    | .error e => .error e
    | .ok (key, v, rest) =>
      match rest with
      | [] => .ok [(key, v)]
      | .punct c :: rest2 =>
        if c = ',' then
          match parseDirectParamsGo fuel rest2 with
          | .error e => .error e
          | .ok l => .ok ((key, v) :: l)
        else .error "Expected key = value syntax"
      | _ => .error "Expected key = value syntax"

/-- `syn::parse2::<TomplateInput>` over the modelled token grammar: a string
literal (the template name), then optionally a comma and `key = value`
arguments. -/
def parseTomplateInput : List TokenTree → Except String TomplateInput
  | .litTok (.str name) :: rest =>
    match rest with
    | [] => .ok ⟨name, []⟩
    | .punct c :: rest2 =>
      if c = ',' then
        match parseDirectParamsGo rest2.length rest2 with
        | .error e => .error e
        | .ok ps => .ok ⟨name, ps⟩
      else .error "Expected key = value syntax"
    | _ => .error "Expected key = value syntax"
  | _ => .error "Expected template name as string literal"

/-- One character of proc-macro2's string-literal printing: `"` and `\` are
escaped with a backslash.  (Control-character escapes are not modelled; no
claim evaluates them.) -/
def escapeLitChar (c : Char) : List Char :=
  if c = '"' ∨ c = '\\' then ['\\', c] else [c]

/-- The token text of the string literal produced by `quote! { #s }`, i.e.
what `TokenStream::to_string()` prints for it: the escaped value wrapped in
double quotes. -/
def litRepr (s : String) : String :=
  "\"" ++ String.mk (s.data.map escapeLitChar).flatten ++ "\""

/-- Rust `str::trim_matches('"')`: strip every leading and trailing `"`. -/
def trimQuotes (s : String) : String :=
  String.mk (((s.data.dropWhile (· = '"')).reverse.dropWhile (· = '"')).reverse)

mutual
/-- `lib.rs` `process_template` (the direct-invocation path): registry
lookup with inline fallback, parameter expansion, engine rendering.  The
returned string is emitted as the string-literal token `quote! { #processed }`.
`ord` models the resolved-parameter `HashMap` iteration order. -/
def process_template (reg : Registry)
    (ord : List (String × String) → List (String × String)) :
    Nat → TomplateInput → Except String String
  | 0, _ => .error recursionLimitMsg
  | fuel+1, input =>
    match resolve_direct_params reg ord fuel input.params [] with
    | .error e => .error e
    | .ok params =>
      match reg.get input.template_name with
      | some t => Engines.process (t.engine.getD "simple") t.template (ord params)
      | none => Engines.process "simple" input.template_name (ord params)
/-- The parameter loop of `lib.rs` `process_template`.  A nested macro call
is re-parsed and recursively processed; the resulting token stream is
printed (`to_string`) and the quotes are trimmed (`trim_matches('"')`) —
exactly the extraction the source performs. -/
def resolve_direct_params (reg : Registry)
    (ord : List (String × String) → List (String × String)) :
    Nat → List (String × DirectParam) → List (String × String) →
    Except String (List (String × String))
  | _, [], acc => .ok acc
  | 0, _ :: _, _ => .error recursionLimitMsg
  | fuel+1, (key, v) :: rest, acc =>
    match v with
    | .literal s => resolve_direct_params reg ord fuel rest (mapInsert acc key s)
    | .macroCall ts =>
      match parseTomplateInput ts with
      | .error e => .error e
      | .ok nested =>
        match process_template reg ord fuel nested with
        | .error e => .error e
        | .ok nestedResult =>
          let token_string := litRepr nestedResult
          let expanded := trimQuotes token_string
          resolve_direct_params reg ord fuel rest (mapInsert acc key expanded)
end

/-- `eager.rs` `is_evaluatable_macro`: the identifiers whose invocations the
eager rewriter evaluates. -/
def is_evaluatable_mac (s : String) : Bool := s = "tomplate" || s = "concat"

/-- The kind of literal `syn::Lit::parse` recognizes (restricted to the
token universe modelled here). -/
inductive LitKind where
  | strK
  | intK
  | floatK
  | boolK
  deriving Repr, DecidableEq

/-- What one call to `syn::Lit::parse` consumes from the head of the stream:
a literal token, a `true`/`false` identifier (a boolean literal), or a `-`
immediately followed by a numeric literal, consumed together as one negative
literal (`parse_negative_lit`).  Returns the kind, the text the matching
typed parse would push (`LitStr::value` for strings, the literal source text
for numbers, `value.to_string()` for booleans), and the rest of the stream;
`none` means `Lit::parse` fails without consuming anything.  Each
`Lit*::parse` (`LitStr`, `LitInt`, `LitFloat`, `LitBool`) delegates to
`Lit::parse`, which commits the stream via `input.step` before the variant
is checked — so a failed typed attempt still consumes a literal-shaped
prefix. -/
def parseLitChunk : List TokenTree → Option (LitKind × String × List TokenTree)
  | .litTok (.str s) :: r => some (.strK, s, r)
  | .litTok (.int s) :: r => some (.intK, s, r)
  | .litTok (.float s) :: r => some (.floatK, s, r)
  | .ident s :: r =>
    if s = "true" ∨ s = "false" then some (.boolK, s, r) else none
  | .punct c :: .litTok (.int s) :: r =>
    if c = '-' then some (.intK, "-" ++ s, r) else none
  | .punct c :: .litTok (.float s) :: r =>
    if c = '-' then some (.floatK, "-" ++ s, r) else none
  | _ => none

/-- `if input.peek(Token![,]) { input.parse::<Token![,]>()?; }`: consume one
optional comma. -/
def skipComma : List TokenTree → List TokenTree
  | .punct c :: r => if c = ',' then r else .punct c :: r
  | r => r

/-- The skip branch of the element loop: `input.step` over one token tree,
or the unexpected-end-of-input error when the stream is exhausted; on
success the optional comma is consumed. -/
def concatSkip : List TokenTree → Except String (Option String × List TokenTree)
  | [] => .error "Unexpected end of input"
  | _ :: r => .ok (none, skipComma r)

/-- One iteration of the element loop of `evaluate_concat`: the four typed
literal parse attempts in source order (`LitStr`, `LitInt`, `LitFloat`,
`LitBool`), each consuming a literal-shaped prefix even when its variant
then mismatches (so a later attempt parses the stream already advanced by
the earlier failed ones), then the one-token-tree skip, then one optional
comma.  Returns the pushed part, if any, and the remaining stream. -/
def concatStep (ts : List TokenTree) : Except String (Option String × List TokenTree) :=
  match parseLitChunk ts with
  | some (.strK, v, r) => .ok (some v, skipComma r)
  | some (_, _, r1) =>
    match parseLitChunk r1 with
    | some (.intK, v, r2) => .ok (some v, skipComma r2)
    | some (_, _, r2) =>
      match parseLitChunk r2 with
      | some (.floatK, v, r3) => .ok (some v, skipComma r3)
      | some (_, _, r3) =>
        match parseLitChunk r3 with
        | some (.boolK, v, r4) => .ok (some v, skipComma r4)
        | some (_, _, r4) => concatSkip r4
        | none => concatSkip r3
      | none => concatSkip r2
    | none => concatSkip r1
  | none => concatSkip ts

/-- Prepend a parsed value when present. -/
def pushVal (v : Option String) (l : List String) : List String :=
  match v with
  | some s => s :: l
  | none => l

/-- The element loop of `evaluate_concat` (`while !input.is_empty()`):
repeat `concatStep` until the stream is empty, collecting the pushed parts
in order.  Fuel-indexed; every iteration consumes at least one token, so
`fuel = ts.length` suffices. -/
def concatGo : Nat → List TokenTree → Except String (List String)
  | _, [] => .ok []
  | 0, _ :: _ => .error recursionLimitMsg
  | fuel+1, t :: rest =>
    match concatStep (t :: rest) with
    | .error e => .error e
    | .ok (part, remaining) =>
      match concatGo fuel remaining with
      | .error e => .error e
      | .ok parts => .ok (pushVal part parts)

/-- The parts `evaluate_concat` collects from an (already eager-processed)
token stream — fallible, since the skip of an empty stream is an error. -/
def concatParts (ts : List TokenTree) : Except String (List String) :=
  concatGo ts.length ts

mutual
/-- `eager.rs` `process_eager`: walk the token stream; evaluate
`tomplate!`/`concat!` invocation groups in place, recurse into other groups
re-wrapping with the same delimiter, and pass all other tokens through.
When an evaluatable identifier is followed by `!` but the next token is not
a group, the source consumes that token with `tokens.next()` and re-emits
only the identifier and the bang — the consumed token is dropped. -/
def process_eager (reg : Registry)
    (ord : List (String × String) → List (String × String)) :
    Nat → List TokenTree → Except String (List TokenTree)
  | 0, _ => .error recursionLimitMsg
  | fuel+1, ts =>
    match ts with
    | [] => .ok []
    | .ident s :: rest =>
      if is_evaluatable_mac s then
        match rest with
        | .punct c :: rest2 =>
          if c = '!' then
            match rest2 with
            | .group d gts :: rest3 =>
              match evaluate_macro_call reg ord fuel s d gts with
              | .error e => .error e
              | .ok result =>
                match process_eager reg ord fuel rest3 with
                | .error e => .error e
                | .ok out => .ok (result ++ out)
            | _ :: rest3 =>
              match process_eager reg ord fuel rest3 with
              | .error e => .error e
              | .ok out => .ok (.ident s :: .punct '!' :: out)
            | [] => .ok [.ident s, .punct '!']
          else
            match process_eager reg ord fuel rest with
            | .error e => .error e
            | .ok out => .ok (.ident s :: out)
        | _ =>
          match process_eager reg ord fuel rest with
          | .error e => .error e
          | .ok out => .ok (.ident s :: out)
      else
        match process_eager reg ord fuel rest with
        | .error e => .error e
        | .ok out => .ok (.ident s :: out)
    | .group d gts :: rest =>
      match process_eager reg ord fuel gts with
      | .error e => .error e
      | .ok inner =>
        match process_eager reg ord fuel rest with
        | .error e => .error e
        | .ok out => .ok (.group d inner :: out)
    | other :: rest =>
      match process_eager reg ord fuel rest with
      | .error e => .error e
      | .ok out => .ok (other :: out)
/-- `eager.rs` `evaluate_macro`: dispatch on the identifier.  The fallback
arm re-emits the invocation unchanged (unreachable after
`is_evaluatable_macro`). -/
def evaluate_macro_call (reg : Registry)
    (ord : List (String × String) → List (String × String)) :
    Nat → String → Delim → List TokenTree → Except String (List TokenTree)
  | 0, _, _, _ => .error recursionLimitMsg
  | fuel+1, name, d, gts =>
    if name = "tomplate" then
      match parseTomplateInput gts with
      | .error e => .error e
      | .ok input =>
        match process_template reg ord fuel input with
        | .error e => .error e
        | .ok s => .ok [.litTok (.str s)]
    else if name = "concat" then evaluate_concat reg ord fuel gts
    else .ok [.ident name, .punct '!', .group d gts]
/-- `eager.rs` `evaluate_concat`: eager-process the inner tokens first, then
run the element loop (`parser.parse2`) over the processed stream; on success
the parts are joined with no separator and the result is the string-literal
token `quote! { #concatenated }`, and a failing loop (the skip branch at the
end of the stream) fails the whole evaluation. -/
def evaluate_concat (reg : Registry)
    (ord : List (String × String) → List (String × String)) :
    Nat → List TokenTree → Except String (List TokenTree)
  | 0, _ => .error recursionLimitMsg
  | fuel+1, gts =>
    match process_eager reg ord fuel gts with
    | .error e => .error e
    | .ok processed =>
      match concatParts processed with
      | .error e => .error e
      | .ok parts => .ok [.litTok (.str (String.join parts))]
end

/-! ## Equations for the fuel-indexed string workers -/

theorem replGo_congr (pat rep : List Char) :
    ∀ f g s, s.length ≤ f → s.length ≤ g →
      replGo pat rep f s = replGo pat rep g s := by
  intro f
  induction f with
  | zero =>
    intro g s hf _
    have hs : s = [] := List.length_eq_zero.mp (Nat.le_zero.mp hf)
    subst hs; cases g <;> rfl
  | succ f ih =>
    intro g s hf hg
    cases s with
    | nil => cases g <;> rfl
    | cons c rest =>
      cases g with
      | zero => simp at hg
      | succ g =>
        simp only [replGo]
        cases hpre : pat.isPrefixOf (c :: rest) with
        | false =>
          simp only [Bool.false_eq_true, if_false]
          rw [ih g rest (by simp at hf; omega) (by simp at hg; omega)]
        | true =>
          simp only [if_true]
          rw [ih g (List.drop (pat.length - 1) rest)
            (by simp only [List.length_cons] at hf; simp [List.length_drop]; omega)
            (by simp only [List.length_cons] at hg; simp [List.length_drop]; omega)]

theorem replaceAll_nil (pat rep : List Char) : replaceAll pat rep [] = [] := by
  unfold replaceAll
  split <;> rfl

theorem replaceAll_eq_go (pat rep s : List Char) (hp : pat ≠ []) :
    replaceAll pat rep s = replGo pat rep s.length s := by
  have hne : pat.isEmpty = false := by
    cases pat with
    | nil => exact absurd rfl hp
    | cons a l => rfl
  unfold replaceAll
  rw [hne]
  simp

theorem replaceAll_cons (pat rep : List Char) (hp : pat ≠ []) (c : Char)
    (rest : List Char) :
    replaceAll pat rep (c :: rest) =
      if pat.isPrefixOf (c :: rest) then
        rep ++ replaceAll pat rep (List.drop (pat.length - 1) rest)
      else c :: replaceAll pat rep rest := by
  rw [replaceAll_eq_go pat rep _ hp, replaceAll_eq_go pat rep rest hp,
    replaceAll_eq_go pat rep (List.drop (pat.length - 1) rest) hp]
  simp only [List.length_cons, replGo]
  cases hpre : pat.isPrefixOf (c :: rest) with
  | false => simp only [Bool.false_eq_true, if_false]
  | true =>
    simp only [if_true]
    congr 1
    exact replGo_congr pat rep rest.length (List.drop (pat.length - 1) rest).length
      (List.drop (pat.length - 1) rest) (by simp [List.length_drop]) (Nat.le_refl _)

/-- A match step of `replaceAll`: the pattern occurrence is consumed whole. -/
theorem replaceAll_match (pat rep tail : List Char) (hp : pat ≠ []) :
    replaceAll pat rep (pat ++ tail) = rep ++ replaceAll pat rep tail := by
  cases pat with
  | nil => exact absurd rfl hp
  | cons p ps =>
    rw [List.cons_append, replaceAll_cons _ _ hp]
    have hpre : (p :: ps).isPrefixOf (p :: (ps ++ tail)) = true := by
      simp [List.isPrefixOf_iff_prefix]
    rw [hpre]
    simp only [if_true, List.length_cons, Nat.add_sub_cancel]
    rw [List.drop_left' (by rfl : ps.length = ps.length)]

/-- A non-match step of `replaceAll`. -/
theorem replaceAll_skip (pat rep : List Char) (c : Char) (rest : List Char)
    (h : ¬ pat.isPrefixOf (c :: rest)) :
    replaceAll pat rep (c :: rest) = c :: replaceAll pat rep rest := by
  have hp : pat ≠ [] := by
    intro he; subst he; simp [List.isPrefixOf] at h
  rw [replaceAll_cons _ _ hp]
  simp [h]

theorem substGo_congr (M : List (String × String)) :
    ∀ f g s, s.length ≤ f → s.length ≤ g →
      substGo M f s = substGo M g s := by
  intro f
  induction f with
  | zero =>
    intro g s hf _
    have hs : s = [] := List.length_eq_zero.mp (Nat.le_zero.mp hf)
    subst hs; cases g <;> rfl
  | succ f ih =>
    intro g s hf hg
    cases s with
    | nil => cases g <;> rfl
    | cons c rest =>
      cases g with
      | zero => simp at hg
      | succ g =>
        simp only [substGo]
        cases hm : findMatch M (c :: rest) with
        | none =>
          dsimp only
          rw [ih g rest (by simp at hf; omega) (by simp at hg; omega)]
        | some kv =>
          dsimp only
          rw [ih g (List.drop (kv.1.length + 1) rest)
            (by simp only [List.length_cons] at hf; simp [List.length_drop]; omega)
            (by simp only [List.length_cons] at hg; simp [List.length_drop]; omega)]

theorem substAll_nil (M : List (String × String)) : substAll M [] = [] := rfl

theorem substAll_cons (M : List (String × String)) (c : Char) (rest : List Char) :
    substAll M (c :: rest) =
      match findMatch M (c :: rest) with
      | some kv => kv.2.data ++ substAll M (List.drop (kv.1.length + 1) rest)
      | none => c :: substAll M rest := by
  show substGo M (rest.length + 1) (c :: rest) = _
  simp only [substGo]
  cases hm : findMatch M (c :: rest) with
  | none =>
    dsimp only
    rw [substGo_congr M rest.length rest.length rest (Nat.le_refl _) (Nat.le_refl _)]
    rfl
  | some kv =>
    dsimp only
    rw [substGo_congr M rest.length (List.drop (kv.1.length + 1) rest).length
      (List.drop (kv.1.length + 1) rest) (by simp [List.length_drop]) (Nat.le_refl _)]
    rfl

/-! ## Scanner lemmas -/

theorem scanPH_skip (c : Char) (hc : c ≠ lbrace) (s : List Char) :
    scanPH (c :: s) none = scanPH s none := by
  simp [scanPH, hc]

theorem scanPH_open (s : List Char) :
    scanPH (lbrace :: s) none = scanPH s (some []) := by
  simp [scanPH]

theorem scanPH_noclose : ∀ (t : List Char), rbrace ∉ t → ∀ acc,
    scanPH t (some acc) = []
  | [], _, _ => rfl
  | c :: rest, ht, acc => by
    have hc : c ≠ rbrace := by
      intro he; exact ht (by simp [he])
    have ih := scanPH_noclose rest (by intro hm; exact ht (by simp [hm]))
    simp only [scanPH, hc, if_false]
    exact ih _

theorem scanPH_inside : ∀ (w : List Char), rbrace ∉ w → ∀ acc r,
    scanPH (w ++ rbrace :: r) (some acc) =
      if acc.isEmpty && w.isEmpty then scanPH r none
      else String.mk (acc.reverse ++ w) :: scanPH r none
  | [], _, acc, r => by
    simp [scanPH]
  | c :: w', hw, acc, r => by
    have hc : c ≠ rbrace := by
      intro he; exact hw (by simp [he])
    have ih := scanPH_inside w' (by intro hm; exact hw (by simp [hm])) (c :: acc) r
    show scanPH (c :: (w' ++ rbrace :: r)) (some acc) = _
    simp only [scanPH, hc, if_false]
    rw [ih]
    simp [List.append_assoc]

theorem placeholders_decomp (w : List Char) (hw : rbrace ∉ w) (r : List Char) :
    placeholders (lbrace :: (w ++ rbrace :: r)) =
      if w.isEmpty then placeholders r else String.mk w :: placeholders r := by
  unfold placeholders
  rw [scanPH_open, scanPH_inside w hw [] r]
  simp

theorem scanPH_bf_append : ∀ (v : List Char), lbrace ∉ v → ∀ s,
    scanPH (v ++ s) none = scanPH s none
  | [], _, s => rfl
  | c :: v', hv, s => by
    have hc : c ≠ lbrace := by
      intro he; exact hv (by simp [he])
    have ih := scanPH_bf_append v' (by intro hm; exact hv (by simp [hm])) s
    simp only [List.cons_append, scanPH, hc, if_false]
    exact ih

theorem placeholders_append_bf (v : List Char) (hv : lbrace ∉ v) (s : List Char) :
    placeholders (v ++ s) = placeholders s :=
  scanPH_bf_append v hv s

theorem placeholders_no_lb (s : List Char) (h : lbrace ∉ s) :
    placeholders s = [] := by
  have := scanPH_bf_append s h []
  simpa [placeholders] using this

theorem scanPH_no_rb : ∀ (s : List Char), rbrace ∉ s → ∀ st, scanPH s st = []
  | [], _, _ => rfl
  | c :: rest, h, st => by
    have hrest : rbrace ∉ rest := by intro hm; exact h (by simp [hm])
    have hc : c ≠ rbrace := by intro he; exact h (by simp [he])
    cases st with
    | none =>
      by_cases hcl : c = lbrace
      · simp only [scanPH, hcl, if_pos rfl]
        exact scanPH_noclose rest hrest []
      · simp only [scanPH, hcl, if_false]
        exact scanPH_no_rb rest hrest none
    | some acc =>
      simp only [scanPH, hc, if_false]
      exact scanPH_no_rb rest hrest (some (c :: acc))

theorem placeholders_no_rb (s : List Char) (h : rbrace ∉ s) :
    placeholders s = [] :=
  scanPH_no_rb s h none

theorem scanUnsub_eq_filter (keys : List String) :
    ∀ (s : List Char) (st : Option (List Char)),
      scanUnsub keys s st = (scanPH s st).filter (fun n => !(keys.contains n))
  | [], st => by cases st <;> rfl
  | c :: rest, none => by
    by_cases hc : c = lbrace
    · simp only [scanUnsub, scanPH, hc, if_pos rfl]
      exact scanUnsub_eq_filter keys rest (some [])
    · simp only [scanUnsub, scanPH, hc, if_false]
      exact scanUnsub_eq_filter keys rest none
  | c :: rest, some acc => by
    by_cases hc : c = rbrace
    · subst hc
      simp only [scanUnsub, scanPH, if_pos rfl]
      by_cases ha : acc.isEmpty
      · simp only [ha, Bool.true_or, if_pos rfl, if_true]
        exact scanUnsub_eq_filter keys rest none
      · simp only [ha, Bool.false_or, if_false]
        cases hk : keys.contains (String.mk acc.reverse) with
        | true =>
          simp only [if_true, List.filter, hk, Bool.not_true]
          exact scanUnsub_eq_filter keys rest none
        | false =>
          rw [scanUnsub_eq_filter keys rest none]
          have hnm : (String.mk acc.reverse) ∉ keys := by simpa using hk
          simp [List.filter_cons, hnm]
    · simp only [scanUnsub, scanPH, hc, if_false]
      exact scanUnsub_eq_filter keys rest (some (c :: acc))

/-! ## Pattern-prefix facts -/

theorem braceFree_not_lb {s : List Char} (h : BraceFree s) : lbrace ∉ s :=
  fun hm => (h _ hm).1 rfl

theorem braceFree_not_rb {s : List Char} (h : BraceFree s) : rbrace ∉ s :=
  fun hm => (h _ hm).2 rfl

theorem phPat_ne_nil (k : String) : phPat k ≠ [] := by simp [phPat]

theorem key_close_prefix_unique : ∀ (k1 k2 : List Char), rbrace ∉ k2 →
    (k1 ++ [rbrace]) <+: (k2 ++ [rbrace]) → k1 = k2
  | [], [], _, _ => rfl
  | [], c :: k2', h2, hp => by
    have he : rbrace = c := by simpa using hp
    subst he
    exact absurd (List.mem_cons_self _ _) h2
  | a :: k1', [], _, hp => by
    have := hp.length_le
    simp at this
  | a :: k1', c :: k2', h2, hp => by
    rw [List.cons_append, List.cons_append] at hp
    rcases List.cons_prefix_cons.mp hp with ⟨he, hp'⟩
    have h2' : rbrace ∉ k2' := fun hm => h2 (List.mem_cons_of_mem _ hm)
    rw [he, key_close_prefix_unique k1' k2' h2' hp']

theorem phPat_prefix_unique (k1 k2 : String) (h1 : rbrace ∉ k1.data)
    (h2 : rbrace ∉ k2.data) (s : List Char)
    (hp1 : (phPat k1) <+: s) (hp2 : (phPat k2) <+: s) : k1 = k2 := by
  have hdata : k1.data = k2.data := by
    rcases List.prefix_or_prefix_of_prefix hp1 hp2 with h | h
    · rcases List.cons_prefix_cons.mp h with ⟨_, h'⟩
      exact key_close_prefix_unique k1.data k2.data h2 h'
    · rcases List.cons_prefix_cons.mp h with ⟨_, h'⟩
      exact (key_close_prefix_unique k2.data k1.data h1 h').symm
  cases k1; cases k2
  dsimp only at hdata
  rw [hdata]

theorem not_phPat_prefix_of_head (k : String) (c : Char) (hc : c ≠ lbrace)
    (rest : List Char) : ¬ (phPat k) <+: (c :: rest) := by
  intro h
  exact hc (List.cons_prefix_cons.mp h).1.symm

theorem rb_mem_phPat (k : String) : rbrace ∈ phPat k := by simp [phPat]

/-! ## Pass-through lemmas for `replaceAll` on `\x7bkey\x7d` patterns -/

theorem replaceAll_skip_ne_lb (k : String) (rep : List Char) (c : Char)
    (hc : c ≠ lbrace) (rest : List Char) :
    replaceAll (phPat k) rep (c :: rest) = c :: replaceAll (phPat k) rep rest := by
  apply replaceAll_skip
  simp only [List.isPrefixOf_iff_prefix]
  exact not_phPat_prefix_of_head k c hc rest

theorem replaceAll_append_bf (k : String) (rep : List Char) :
    ∀ (w : List Char), (∀ c ∈ w, c ≠ lbrace) → ∀ rest,
      replaceAll (phPat k) rep (w ++ rest) = w ++ replaceAll (phPat k) rep rest
  | [], _, rest => by simp
  | c :: w', hw, rest => by
    rw [List.cons_append,
      replaceAll_skip_ne_lb k rep c (hw c (List.mem_cons_self c w')) _,
      replaceAll_append_bf k rep w' (fun x hx => hw x (List.mem_cons_of_mem _ hx)) rest,
      List.cons_append]

theorem replaceAll_noclose (k : String) (rep : List Char) :
    ∀ (u : List Char), rbrace ∉ u → replaceAll (phPat k) rep u = u
  | [], _ => replaceAll_nil _ _
  | c :: u', hu => by
    have hnp : ¬ (phPat k).isPrefixOf (c :: u') := by
      simp only [List.isPrefixOf_iff_prefix]
      intro hp
      exact hu (hp.subset (rb_mem_phPat k))
    rw [replaceAll_skip _ _ _ _ hnp,
      replaceAll_noclose k rep u' (fun hm => hu (List.mem_cons_of_mem _ hm))]

theorem replaceAll_ph (k : String) (rep tail : List Char) :
    replaceAll (phPat k) rep (lbrace :: (k.data ++ rbrace :: tail)) =
      rep ++ replaceAll (phPat k) rep tail := by
  have h : lbrace :: (k.data ++ rbrace :: tail) = phPat k ++ tail := by
    simp [phPat]
  rw [h, replaceAll_match _ _ _ (phPat_ne_nil k)]

/-! ## Pass-through lemmas for `substAll` -/

theorem findMatch_nil (M : List (String × String)) : findMatch M [] = none := by
  apply List.find?_eq_none.mpr
  intro kv _
  have h : ¬ (phPat kv.1) <+: ([] : List Char) := by
    rw [List.prefix_nil]
    exact phPat_ne_nil kv.1
  simpa [List.isPrefixOf_iff_prefix] using h

theorem findMatch_skip (M : List (String × String)) (c : Char) (hc : c ≠ lbrace)
    (rest : List Char) : findMatch M (c :: rest) = none := by
  apply List.find?_eq_none.mpr
  intro kv _
  simp only [List.isPrefixOf_iff_prefix, Bool.not_eq_true, decide_eq_false_iff_not]
  exact not_phPat_prefix_of_head kv.1 c hc rest

theorem substAll_skip (M : List (String × String)) (c : Char) (rest : List Char)
    (h : findMatch M (c :: rest) = none) :
    substAll M (c :: rest) = c :: substAll M rest := by
  rw [substAll_cons, h]

theorem substAll_skip_ne_lb (M : List (String × String)) (c : Char)
    (hc : c ≠ lbrace) (rest : List Char) :
    substAll M (c :: rest) = c :: substAll M rest :=
  substAll_skip M c rest (findMatch_skip M c hc rest)

theorem substAll_append_bf (M : List (String × String)) :
    ∀ (w : List Char), (∀ c ∈ w, c ≠ lbrace) → ∀ rest,
      substAll M (w ++ rest) = w ++ substAll M rest
  | [], _, rest => by simp
  | c :: w', hw, rest => by
    rw [List.cons_append,
      substAll_skip_ne_lb M c (hw c (List.mem_cons_self c w')) _,
      substAll_append_bf M w' (fun x hx => hw x (List.mem_cons_of_mem _ hx)) rest,
      List.cons_append]

theorem substAll_noclose (M : List (String × String)) :
    ∀ (u : List Char), rbrace ∉ u → substAll M u = u
  | [], _ => rfl
  | c :: u', hu => by
    have hm : findMatch M (c :: u') = none := by
      apply List.find?_eq_none.mpr
      intro kv _
      simp only [List.isPrefixOf_iff_prefix, Bool.not_eq_true, decide_eq_false_iff_not]
      intro hp
      exact hu (hp.subset (rb_mem_phPat kv.1))
    rw [substAll_skip _ _ _ hm,
      substAll_noclose M u' (fun hx => hu (List.mem_cons_of_mem _ hx))]

theorem substAll_ph (M : List (String × String)) (k0 v0 : String)
    (tail : List Char)
    (hm : findMatch M (lbrace :: (k0.data ++ rbrace :: tail)) = some (k0, v0)) :
    substAll M (lbrace :: (k0.data ++ rbrace :: tail)) =
      v0.data ++ substAll M tail := by
  rw [substAll_cons, hm]
  dsimp only
  congr 1
  have h : k0.data ++ rbrace :: tail = (k0.data ++ [rbrace]) ++ tail := by simp
  have hlen : (k0.data ++ [rbrace]).length = k0.length + 1 := by
    rw [List.length_append, List.length_cons, List.length_nil, String.length_data]
  rw [h, List.drop_left' hlen]

/-- The contents of a `some` result of `findMatch` really are a parameter
whose pattern is a prefix. -/
theorem findMatch_some_spec (M : List (String × String)) (s : List Char)
    (kv : String × String) (h : findMatch M s = some kv) :
    kv ∈ M ∧ (phPat kv.1) <+: s := by
  refine ⟨List.mem_of_find?_eq_some h, ?_⟩
  have := List.find?_some h
  simpa [List.isPrefixOf_iff_prefix] using this

/-- When some key's pattern is a prefix, `findMatch` finds that key (all keys
brace-free, so at most one pattern can match). -/
theorem findMatch_found (M : List (String × String))
    (hK : ∀ kv ∈ M, BraceFree kv.1.data)
    (k0 : String) (hbf0 : BraceFree k0.data)
    (s : List Char) (hp : phPat k0 <+: s)
    (hmem : k0 ∈ M.map Prod.fst) :
    ∃ v0, findMatch M s = some (k0, v0) := by
  induction M with
  | nil => simp at hmem
  | cons kv M' ih =>
    by_cases hpre : (phPat kv.1).isPrefixOf s
    · have hkbf := hK kv (List.mem_cons_self kv M')
      have hkeq : kv.1 = k0 := by
        apply phPat_prefix_unique kv.1 k0 (braceFree_not_rb hkbf)
          (braceFree_not_rb hbf0) s _ hp
        simpa [List.isPrefixOf_iff_prefix] using hpre
      refine ⟨kv.2, ?_⟩
      unfold findMatch
      rw [List.find?_cons_of_pos (p := fun kv => (phPat kv.1).isPrefixOf s) M' hpre]
      rw [← hkeq]
    · unfold findMatch
      rw [List.find?_cons_of_neg (p := fun kv => (phPat kv.1).isPrefixOf s) M' hpre]
      have hne : k0 ≠ kv.1 := by
        intro he
        apply hpre
        rw [← he]
        simpa [List.isPrefixOf_iff_prefix] using hp
      have hmem2 : k0 ∈ kv.1 :: M'.map Prod.fst := by
        rw [List.map_cons] at hmem
        exact hmem
      have hmem' : k0 ∈ M'.map Prod.fst := by
        rcases List.mem_cons.mp hmem2 with he | hm
        · exact absurd he hne
        · exact hm
      exact ih (fun x hx => hK x (List.mem_cons_of_mem _ hx)) hmem'

/-! ## The scanner grammar of covered strings -/

/-- The structure of a string each of whose non-empty scanner placeholders
lies in `K`: literal non-`\x7b` characters, empty `\x7b\x7d` pairs, full
placeholders of names in `K`, or an unclosed `\x7b` tail. -/
inductive Covered (K : List String) : List Char → Prop where
  | nil : Covered K []
  | lit (c : Char) (hc : c ≠ lbrace) {s : List Char} (h : Covered K s) :
      Covered K (c :: s)
  | emptyPH {s : List Char} (h : Covered K s) :
      Covered K (lbrace :: rbrace :: s)
  | ph (k : String) (hk : k ∈ K) (hnr : rbrace ∉ k.data) {s : List Char}
      (h : Covered K s) : Covered K (lbrace :: (k.data ++ rbrace :: s))
  | tailUnclosed (t : List Char) (ht : rbrace ∉ t) : Covered K (lbrace :: t)

theorem split_first_rb : ∀ (l : List Char), rbrace ∈ l →
    ∃ w r, l = w ++ rbrace :: r ∧ rbrace ∉ w
  | [], h => absurd h (by simp)
  | c :: l', h => by
    by_cases hc : c = rbrace
    · exact ⟨[], l', by simp [hc], by simp⟩
    · have h' : rbrace ∈ l' := by
        rcases List.mem_cons.mp h with he | hm
        · exact absurd he.symm hc
        · exact hm
      obtain ⟨w, r, hl, hw⟩ := split_first_rb l' h'
      refine ⟨c :: w, r, by simp [hl], ?_⟩
      intro hm
      rcases List.mem_cons.mp hm with he | hm'
      · exact hc he.symm
      · exact hw hm'

theorem covered_of_placeholders_aux (K : List String) :
    ∀ (N : Nat) (s : List Char), s.length ≤ N →
      (∀ n ∈ placeholders s, n ∈ K) → Covered K s := by
  intro N
  induction N with
  | zero =>
    intro s hs _
    rw [List.length_eq_zero.mp (Nat.le_zero.mp hs)]
    exact .nil
  | succ N ih =>
    intro s hs hcov
    match s with
    | [] => exact .nil
    | c :: rest =>
      by_cases hc : c = lbrace
      · subst hc
        by_cases hrb : rbrace ∈ rest
        · obtain ⟨w, r, hrest, hw⟩ := split_first_rb rest hrb
          subst hrest
          have hdec := placeholders_decomp w hw r
          by_cases hwe : w = []
          · subst hwe
            apply Covered.emptyPH
            apply ih r (by simp at hs; omega)
            intro n hn
            apply hcov
            rw [show placeholders (lbrace :: ([] ++ rbrace :: r)) = placeholders r by
              simpa using hdec]
            exact hn
          · have hie : w.isEmpty = false := by
              cases w with
              | nil => exact absurd rfl hwe
              | cons a l => rfl
            rw [hie] at hdec
            simp only [Bool.false_eq_true, if_false] at hdec
            have hmemw : String.mk w ∈ K := by
              apply hcov
              rw [hdec]
              exact List.mem_cons_self _ _
            apply Covered.ph (String.mk w) hmemw hw
            apply ih r (by simp at hs; omega)
            intro n hn
            apply hcov
            rw [hdec]
            exact List.mem_cons_of_mem _ hn
        · exact Covered.tailUnclosed rest hrb
      · apply Covered.lit c hc
        apply ih rest (by simp at hs; omega)
        intro n hn
        apply hcov
        rw [show placeholders (c :: rest) = placeholders rest from
          scanPH_skip c hc rest]
        exact hn

theorem covered_of_placeholders (K : List String) (s : List Char)
    (hcov : ∀ n ∈ placeholders s, n ∈ K) : Covered K s :=
  covered_of_placeholders_aux K s.length s (Nat.le_refl _) hcov

/-! ## Sequential substitution equals simultaneous substitution on covered
strings -/

theorem lbrace_ne_rbrace : lbrace ≠ rbrace := by decide

/-- Every key is a non-empty brace-free identifier, as the macro grammar
produces. -/
def KeysOK (M : List (String × String)) : Prop :=
  ∀ kv ∈ M, kv.1 ≠ "" ∧ BraceFree kv.1.data

instance (M : List (String × String)) : Decidable (KeysOK M) := by
  unfold KeysOK; infer_instance

/-- Every value of the mapping is brace-free. -/
def ValsBF (M : List (String × String)) : Prop :=
  ∀ kv ∈ M, BraceFree kv.2.data

instance (M : List (String × String)) : Decidable (ValsBF M) := by
  unfold ValsBF; infer_instance

theorem keysOK_of_mem_map {M : List (String × String)} (hK : KeysOK M)
    {k0 : String} (h : k0 ∈ M.map Prod.fst) :
    k0 ≠ "" ∧ BraceFree k0.data := by
  rcases List.mem_map.mp h with ⟨kv, hkv, he⟩
  exact he ▸ hK kv hkv

theorem covered_append_bf {K : List String} :
    ∀ (w : List Char), (∀ c ∈ w, c ≠ lbrace) → ∀ {t : List Char},
      Covered K t → Covered K (w ++ t)
  | [], _, _, ht => ht
  | c :: w', hw, _, ht =>
    Covered.lit c (hw c (List.mem_cons_self c w'))
      (covered_append_bf w' (fun x hx => hw x (List.mem_cons_of_mem _ hx)) ht)

theorem string_eq_empty_of_data {k : String} (h : k.data = []) : k = "" := by
  cases k with
  | mk d =>
    dsimp only at h
    subst h
    rfl

theorem not_phPat_prefix_emptyPH (k : String) (hkne : k ≠ "")
    (hkbf : BraceFree k.data) (t : List Char) :
    ¬ (phPat k) <+: (lbrace :: rbrace :: t) := by
  intro hp
  rcases List.cons_prefix_cons.mp hp with ⟨_, hp'⟩
  cases hk : k.data with
  | nil => exact hkne (string_eq_empty_of_data hk)
  | cons a l =>
    rw [hk] at hp'
    have ha : a = rbrace := (List.cons_prefix_cons.mp hp').1
    exact (hkbf a (by rw [hk]; exact List.mem_cons_self a l)).2 ha

theorem phPat_prefix_ph (k0 : String) (X : List Char) :
    phPat k0 <+: (lbrace :: (k0.data ++ rbrace :: X)) := by
  refine ⟨X, ?_⟩
  simp [phPat]

/-- For brace-free keys, a pattern is a prefix of a full-placeholder string
exactly when it is that placeholder's own pattern (independently of the
tail). -/
theorem phPat_prefix_iff_ph (k' k0 : String) (h1 : rbrace ∉ k'.data)
    (h0 : rbrace ∉ k0.data) (X : List Char) :
    (phPat k') <+: (lbrace :: (k0.data ++ rbrace :: X)) ↔ k' = k0 := by
  constructor
  · intro hp
    exact phPat_prefix_unique k' k0 h1 h0 _ hp (phPat_prefix_ph k0 X)
  · intro he
    subst he
    exact phPat_prefix_ph k' X

theorem find?_congr_mem {α : Type} (p q : α → Bool) :
    ∀ (l : List α), (∀ x ∈ l, p x = q x) → l.find? p = l.find? q
  | [], _ => rfl
  | x :: l', h => by
    simp only [List.find?]
    rw [h x (List.mem_cons_self x l'),
      find?_congr_mem p q l' (fun y hy => h y (List.mem_cons_of_mem _ hy))]

/-- `findMatch` on a full placeholder does not depend on the tail. -/
theorem findMatch_ph_congr (M : List (String × String))
    (hK : ∀ kv ∈ M, BraceFree kv.1.data) (k0 : String)
    (hnr : rbrace ∉ k0.data) (X Y : List Char) :
    findMatch M (lbrace :: (k0.data ++ rbrace :: X)) =
      findMatch M (lbrace :: (k0.data ++ rbrace :: Y)) := by
  apply find?_congr_mem
  intro kv hkv
  have hbf := hK kv hkv
  have hx := phPat_prefix_iff_ph kv.1 k0 (braceFree_not_rb hbf) hnr X
  have hy := phPat_prefix_iff_ph kv.1 k0 (braceFree_not_rb hbf) hnr Y
  cases hbx : (phPat kv.1).isPrefixOf (lbrace :: (k0.data ++ rbrace :: X)) with
  | true =>
    have he : kv.1 = k0 := hx.mp (by simpa [List.isPrefixOf_iff_prefix] using hbx)
    have : (phPat kv.1) <+: (lbrace :: (k0.data ++ rbrace :: Y)) := hy.mpr he
    exact ((by simpa [List.isPrefixOf_iff_prefix] using this) :
      (phPat kv.1).isPrefixOf (lbrace :: (k0.data ++ rbrace :: Y)) = true).symm
  | false =>
    have hne : kv.1 ≠ k0 := by
      intro he
      have : (phPat kv.1) <+: (lbrace :: (k0.data ++ rbrace :: X)) := hx.mpr he
      rw [← List.isPrefixOf_iff_prefix] at this
      rw [hbx] at this
      exact Bool.false_ne_true this
    have hnpy : ¬ (phPat kv.1) <+: (lbrace :: (k0.data ++ rbrace :: Y)) :=
      fun hpy => hne (hy.mp hpy)
    have hby : (phPat kv.1).isPrefixOf (lbrace :: (k0.data ++ rbrace :: Y)) = false := by
      rw [Bool.eq_false_iff]
      intro hb
      exact hnpy (by simpa [List.isPrefixOf_iff_prefix] using hb)
    exact hby.symm

theorem findMatch_none_emptyPH (M : List (String × String)) (hK : KeysOK M)
    (t : List Char) : findMatch M (lbrace :: rbrace :: t) = none := by
  apply List.find?_eq_none.mpr
  intro kv hkv
  obtain ⟨hne, hbf⟩ := hK kv hkv
  simp only [List.isPrefixOf_iff_prefix, Bool.not_eq_true, decide_eq_false_iff_not]
  exact not_phPat_prefix_emptyPH kv.1 hne hbf t

theorem substAll_emptyPH (M : List (String × String)) (hK : KeysOK M)
    (t : List Char) :
    substAll M (lbrace :: rbrace :: t) = lbrace :: rbrace :: substAll M t := by
  rw [substAll_skip M lbrace (rbrace :: t) (findMatch_none_emptyPH M hK t),
    substAll_skip_ne_lb M rbrace (Ne.symm lbrace_ne_rbrace) t]

theorem replaceAll_emptyPH (k : String) (hkne : k ≠ "") (hkbf : BraceFree k.data)
    (rep : List Char) (t : List Char) :
    replaceAll (phPat k) rep (lbrace :: rbrace :: t) =
      lbrace :: rbrace :: replaceAll (phPat k) rep t := by
  have hnm : ¬ (phPat k).isPrefixOf (lbrace :: rbrace :: t) := by
    simp only [List.isPrefixOf_iff_prefix]
    exact not_phPat_prefix_emptyPH k hkne hkbf t
  rw [replaceAll_skip _ _ _ _ hnm,
    replaceAll_skip_ne_lb k rep rbrace (Ne.symm lbrace_ne_rbrace) t]

/-- One sequential `replace` step against the covered-string grammar:
replacing key `k` preserves coveredness for the remaining keys and commutes
with the simultaneous substitution. -/
theorem replaceAll_covered_step (M' : List (String × String)) (k v : String)
    (hkne : k ≠ "") (hkbf : BraceFree k.data) (hvbf : BraceFree v.data)
    (hK' : KeysOK M') {s : List Char}
    (hs : Covered (k :: M'.map Prod.fst) s) :
    Covered (M'.map Prod.fst) (replaceAll (phPat k) v.data s) ∧
      substAll M' (replaceAll (phPat k) v.data s) = substAll ((k, v) :: M') s := by
  have hKall : KeysOK ((k, v) :: M') := by
    intro kv hkv
    rcases List.mem_cons.mp hkv with he | hm
    · rw [he]; exact ⟨hkne, hkbf⟩
    · exact hK' kv hm
  induction hs with
  | nil =>
    rw [replaceAll_nil]
    exact ⟨.nil, rfl⟩
  | lit c hc h ih =>
    rw [replaceAll_skip_ne_lb k v.data c hc _]
    refine ⟨.lit c hc ih.1, ?_⟩
    rw [substAll_skip_ne_lb M' c hc _, substAll_skip_ne_lb ((k, v) :: M') c hc _,
      ih.2]
  | emptyPH h ih =>
    rw [replaceAll_emptyPH k hkne hkbf v.data _]
    refine ⟨.emptyPH ih.1, ?_⟩
    rw [substAll_emptyPH M' hK' _, substAll_emptyPH ((k, v) :: M') hKall _, ih.2]
  | ph k0 hk0 hnr h ih =>
    rename_i tail
    by_cases hek : k0 = k
    · subst hek
      rw [replaceAll_ph k0 v.data tail]
      have hvl : ∀ c ∈ v.data, c ≠ lbrace := fun c hc => (hvbf c hc).1
      refine ⟨covered_append_bf v.data hvl ih.1, ?_⟩
      rw [substAll_append_bf M' v.data hvl _, ih.2]
      have hfm : findMatch ((k0, v) :: M') (lbrace :: (k0.data ++ rbrace :: tail)) =
          some (k0, v) := by
        unfold findMatch
        apply List.find?_cons_of_pos
        simp only [List.isPrefixOf_iff_prefix]
        exact phPat_prefix_ph k0 tail
      rw [substAll_ph ((k0, v) :: M') k0 v tail hfm]
    · have hk0' : k0 ∈ M'.map Prod.fst := by
        rcases List.mem_cons.mp hk0 with he | hm
        · exact absurd he hek
        · exact hm
      obtain ⟨hk0ne, hk0bf⟩ := keysOK_of_mem_map hK' hk0'
      have hnotpre : ¬ (phPat k).isPrefixOf (lbrace :: (k0.data ++ rbrace :: tail)) := by
        simp only [List.isPrefixOf_iff_prefix]
        intro hp
        exact hek ((phPat_prefix_unique k k0 (braceFree_not_rb hkbf)
          hnr _ hp (phPat_prefix_ph k0 tail)).symm)
      have hra : replaceAll (phPat k) v.data (lbrace :: (k0.data ++ rbrace :: tail)) =
          lbrace :: (k0.data ++ rbrace :: replaceAll (phPat k) v.data tail) := by
        rw [replaceAll_skip _ _ _ _ hnotpre,
          replaceAll_append_bf k v.data k0.data (fun c hc => (hk0bf c hc).1) _,
          replaceAll_skip_ne_lb k v.data rbrace (Ne.symm lbrace_ne_rbrace) tail]
      rw [hra]
      refine ⟨Covered.ph k0 hk0' hnr ih.1, ?_⟩
      obtain ⟨v0, hfm⟩ := findMatch_found M' (fun kv hkv => (hK' kv hkv).2) k0 hk0bf
        _ (phPat_prefix_ph k0 (replaceAll (phPat k) v.data tail)) hk0'
      rw [substAll_ph M' k0 v0 _ hfm, ih.2]
      have hfm0 : findMatch M' (lbrace :: (k0.data ++ rbrace :: tail)) =
          some (k0, v0) := by
        rw [findMatch_ph_congr M' (fun kv hkv => (hK' kv hkv).2) k0 hnr tail
          (replaceAll (phPat k) v.data tail)]
        exact hfm
      have hfmc : findMatch ((k, v) :: M') (lbrace :: (k0.data ++ rbrace :: tail)) =
          some (k0, v0) := by
        unfold findMatch
        rw [List.find?_cons_of_neg (p := fun kv =>
          (phPat kv.1).isPrefixOf (lbrace :: (k0.data ++ rbrace :: tail))) M'
          (by simpa using hnotpre)]
        exact hfm0
      rw [substAll_ph ((k, v) :: M') k0 v0 tail hfmc]
  | tailUnclosed t ht =>
    have hnrb : rbrace ∉ lbrace :: t := by
      intro hm
      rcases List.mem_cons.mp hm with he | hm'
      · exact lbrace_ne_rbrace he.symm
      · exact ht hm'
    rw [replaceAll_noclose k v.data _ hnrb]
    exact ⟨Covered.tailUnclosed t ht,
      by rw [substAll_noclose M' _ hnrb, substAll_noclose ((k, v) :: M') _ hnrb]⟩

theorem substAll_nil_params_aux :
    ∀ (N : Nat) (s : List Char), s.length ≤ N →
      substAll ([] : List (String × String)) s = s := by
  intro N
  induction N with
  | zero =>
    intro s hs
    rw [List.length_eq_zero.mp (Nat.le_zero.mp hs)]
    rfl
  | succ N ih =>
    intro s hs
    cases s with
    | nil => rfl
    | cons c rest =>
      rw [substAll_cons]
      have hm : findMatch ([] : List (String × String)) (c :: rest) = none := rfl
      rw [hm]
      rw [ih rest (by simp at hs; omega)]

theorem substAll_nil_params (s : List Char) :
    substAll ([] : List (String × String)) s = s :=
  substAll_nil_params_aux s.length s (Nat.le_refl _)

/-- On a covered string, replacing the keys one after the other (in any list
order) computes exactly the simultaneous verbatim substitution. -/
theorem seqReplace_eq_substAll :
    ∀ (M : List (String × String)), KeysOK M → ValsBF M →
      ∀ {s : List Char}, Covered (M.map Prod.fst) s →
        seqReplace M s = substAll M s
  | [], _, _, s, _ => by
    show s = substAll [] s
    rw [substAll_nil_params s]
  | (k, v) :: M', hK, hv, s, hc => by
    have hhd := hK (k, v) (List.mem_cons_self _ _)
    have hK' : KeysOK M' := fun kv hkv => hK kv (List.mem_cons_of_mem _ hkv)
    have hv' : ValsBF M' := fun kv hkv => hv kv (List.mem_cons_of_mem _ hkv)
    have hc' : Covered (k :: M'.map Prod.fst) s := by
      rw [List.map_cons] at hc
      exact hc
    have step := replaceAll_covered_step M' k v hhd.1 hhd.2
      (hv (k, v) (List.mem_cons_self _ _)) hK' hc'
    show seqReplace M' (replaceAll (phPat k) v.data s) = substAll ((k, v) :: M') s
    rw [seqReplace_eq_substAll M' hK' hv' step.1, step.2]

theorem placeholders_skip (c : Char) (hc : c ≠ lbrace) (s : List Char) :
    placeholders (c :: s) = placeholders s :=
  scanPH_skip c hc s

theorem placeholders_emptyPH (X : List Char) :
    placeholders (lbrace :: rbrace :: X) = placeholders X := by
  unfold placeholders
  rw [scanPH_open]
  simp [scanPH]

/-- After simultaneous substitution of a covering brace-free mapping, no
placeholder remains. -/
theorem placeholders_substAll (M : List (String × String)) (hK : KeysOK M)
    (hv : ValsBF M) {s : List Char} (hs : Covered (M.map Prod.fst) s) :
    placeholders (substAll M s) = [] := by
  induction hs with
  | nil => rfl
  | lit c hc h ih =>
    rw [substAll_skip_ne_lb M c hc, placeholders_skip c hc]
    exact ih
  | emptyPH h ih =>
    rw [substAll_emptyPH M hK, placeholders_emptyPH]
    exact ih
  | ph k0 hk0 hnr h ih =>
    rename_i tail
    obtain ⟨hk0ne, hk0bf⟩ := keysOK_of_mem_map hK hk0
    obtain ⟨v0, hfm⟩ := findMatch_found M (fun kv hkv => (hK kv hkv).2) k0 hk0bf
      _ (phPat_prefix_ph k0 tail) hk0
    rw [substAll_ph M k0 v0 tail hfm]
    have hv0 : BraceFree v0.data := hv (k0, v0) (findMatch_some_spec M _ _ hfm).1
    rw [placeholders_append_bf v0.data (braceFree_not_lb hv0)]
    exact ih
  | tailUnclosed t ht =>
    have hnrb : rbrace ∉ lbrace :: t := by
      intro hm
      rcases List.mem_cons.mp hm with he | hm'
      · exact lbrace_ne_rbrace he.symm
      · exact ht hm'
    rw [substAll_noclose M _ hnrb]
    exact placeholders_no_rb _ hnrb

/-- The plain-substitution engine on a covering brace-free mapping: success,
with the simultaneous-substitution result. -/
theorem process_covered (P : String) (M : List (String × String))
    (hcov : ∀ n ∈ placeholders P.data, n ∈ M.map Prod.fst)
    (hK : KeysOK M) (hv : ValsBF M) :
    Simple.process P M = .ok (String.mk (substAll M P.data)) := by
  have hc := covered_of_placeholders (M.map Prod.fst) P.data hcov
  have h1 := seqReplace_eq_substAll M hK hv hc
  have h2 := placeholders_substAll M hK hv hc
  have hscan : scanUnsub (M.map Prod.fst) (substAll M P.data) none = [] := by
    rw [scanUnsub_eq_filter]
    rw [show scanPH (substAll M P.data) none = placeholders (substAll M P.data)
      from rfl, h2]
    rfl
  unfold Simple.process
  rw [h1]
  simp only [hscan, List.isEmpty_nil, if_true]
  split <;> rfl

/-! ## Permutation invariance of the substitution for brace-free covering
mappings -/

theorem find?_eq_some_of_unique {α : Type} (p : α → Bool) :
    ∀ (l : List α) (x : α), x ∈ l → p x = true →
      (∀ y ∈ l, p y = true → y = x) → l.find? p = some x
  | [], x, hx, _, _ => absurd hx (by simp)
  | a :: l', x, hx, hpx, huniq => by
    by_cases hpa : p a = true
    · rw [List.find?_cons_of_pos _ hpa, huniq a (List.mem_cons_self a l') hpa]
    · rw [List.find?_cons_of_neg _ hpa]
      apply find?_eq_some_of_unique p l' x ?_ hpx
        (fun y hy hpy => huniq y (List.mem_cons_of_mem _ hy) hpy)
      rcases List.mem_cons.mp hx with he | hm
      · subst he; exact absurd hpx hpa
      · exact hm

theorem nodup_keys_ext : ∀ {M : List (String × String)},
    (M.map Prod.fst).Nodup → ∀ {x y : String × String},
      x ∈ M → y ∈ M → x.1 = y.1 → x = y := by
  intro M
  induction M with
  | nil => intro _ x y hx; simp at hx
  | cons a M' ih =>
    intro hnd x y hx hy he
    rw [List.map_cons, List.nodup_cons] at hnd
    rcases List.mem_cons.mp hx with hxa | hxm
    · rcases List.mem_cons.mp hy with hya | hym
      · rw [hxa, hya]
      · exfalso
        apply hnd.1
        have hae : a.1 = y.1 := by rw [← hxa]; exact he
        rw [hae]
        exact List.mem_map.mpr ⟨y, hym, rfl⟩
    · rcases List.mem_cons.mp hy with hya | hym
      · exfalso
        apply hnd.1
        have hae : a.1 = x.1 := by rw [← hya]; exact he.symm
        rw [hae]
        exact List.mem_map.mpr ⟨x, hxm, rfl⟩
      · exact ih hnd.2 hxm hym he

theorem findMatch_perm (M1 M2 : List (String × String)) (hperm : M1.Perm M2)
    (hnd : (M1.map Prod.fst).Nodup) (hK : ∀ kv ∈ M1, BraceFree kv.1.data)
    (s : List Char) : findMatch M1 s = findMatch M2 s := by
  cases hm : findMatch M1 s with
  | none =>
    have hall := List.find?_eq_none.mp hm
    symm
    apply List.find?_eq_none.mpr
    intro kv hkv
    exact hall kv (hperm.mem_iff.mpr hkv)
  | some kv =>
    obtain ⟨hmem, hpre⟩ := findMatch_some_spec M1 s kv hm
    have huniq : ∀ y ∈ M2, (phPat y.1).isPrefixOf s = true → y = kv := by
      intro y hy hpy
      have hy1 : y ∈ M1 := hperm.mem_iff.mpr hy
      have hkeq : y.1 = kv.1 := phPat_prefix_unique y.1 kv.1
        (braceFree_not_rb (hK y hy1)) (braceFree_not_rb (hK kv hmem)) s
        (by simpa [List.isPrefixOf_iff_prefix] using hpy) hpre
      exact nodup_keys_ext hnd hy1 hmem hkeq
    symm
    apply find?_eq_some_of_unique _ M2 kv (hperm.mem_iff.mp hmem)
      (by simpa [List.isPrefixOf_iff_prefix] using hpre) huniq

theorem substAll_congr_findMatch_aux (M1 M2 : List (String × String))
    (h : ∀ u, findMatch M1 u = findMatch M2 u) :
    ∀ (N : Nat) (s : List Char), s.length ≤ N → substAll M1 s = substAll M2 s := by
  intro N
  induction N with
  | zero =>
    intro s hs
    rw [List.length_eq_zero.mp (Nat.le_zero.mp hs)]
    rfl
  | succ N ih =>
    intro s hs
    cases s with
    | nil => rfl
    | cons c rest =>
      rw [substAll_cons, substAll_cons, ← h (c :: rest)]
      cases hm : findMatch M1 (c :: rest) with
      | none =>
        dsimp only
        rw [ih rest (by simp at hs; omega)]
      | some kv =>
        dsimp only
        rw [ih (List.drop (kv.1.length + 1) rest)
          (by simp only [List.length_cons] at hs; simp [List.length_drop]; omega)]

theorem substAll_perm (M1 M2 : List (String × String)) (hperm : M1.Perm M2)
    (hnd : (M1.map Prod.fst).Nodup) (hK : ∀ kv ∈ M1, BraceFree kv.1.data)
    (s : List Char) : substAll M1 s = substAll M2 s :=
  substAll_congr_findMatch_aux M1 M2 (findMatch_perm M1 M2 hperm hnd hK)
    s.length s (Nat.le_refl _)

/-! ## Claims C1, C4, C9 -/

/-- C1 (amended): for every pattern `P` and parameter mapping `M` whose keys
cover every placeholder occurring in `P`, provided every key is a non-empty
identifier containing no brace and no value contains a brace, rendering `P`
with the plain-substitution engine succeeds and returns `P` with every
occurrence of the delimited placeholder replaced by the mapped value — each
value inserted verbatim, unaffected by the other substitutions (this is
`substAll`) — and the result contains no remaining delimited placeholder.
(As originally stated — without the brace-freeness provisos — the claim is
false; see the counterexample.) -/
theorem c1_plain_substitution (P : String) (M : List (String × String))
    (hcov : ∀ n ∈ placeholders P.data, n ∈ M.map Prod.fst)
    (hK : KeysOK M) (hv : ValsBF M) :
    Simple.process P M = .ok (String.mk (substAll M P.data)) ∧
      placeholders (substAll M P.data) = [] :=
  ⟨process_covered P M hcov hK hv,
   placeholders_substAll M hK hv (covered_of_placeholders _ _ hcov)⟩

/-- C1 counterexample to the claim as stated: the mapping
`[b ↦ x, a ↦ "{b}"]` covers the single placeholder `a` of the pattern
`"{a}"`, yet under one iteration order rendering succeeds with `"{b}"` — a
remaining delimited placeholder — and under the other order the inserted
value is rewritten to `x`, so it is not inserted verbatim. -/
theorem c1_counterexample :
    (∀ n ∈ placeholders ("{a}" : String).data,
        n ∈ ([("b", "x"), ("a", "{b}")] :
          List (String × String)).map Prod.fst) ∧
      Simple.process "{a}" [("b", "x"), ("a", "{b}")] = .ok "{b}" ∧
      placeholders ("{b}" : String).data = ["b"] ∧
      Simple.process "{a}" [("a", "{b}"), ("b", "x")] = .ok "x" :=
  ⟨by decide, by rfl, by rfl, by rfl⟩

/-- Witness for `c1_plain_substitution` at Example 1 of the spec. -/
theorem c1_plain_substitution_witness :
    Simple.process "SELECT {fields} FROM {table} WHERE {condition}"
        [("fields", "id, name"), ("table", "users"), ("condition", "id = 1")] =
      .ok "SELECT id, name FROM users WHERE id = 1" := by
  have h := c1_plain_substitution "SELECT {fields} FROM {table} WHERE {condition}"
    [("fields", "id, name"), ("table", "users"), ("condition", "id = 1")]
    (by decide) (by decide) (by decide)
  rw [h.1]
  rfl

/-- C4: the plain-substitution engine fails exactly when, after performing
all substitutions, the result still contains placeholder-shaped text with a
non-empty name that is not a key of the mapping; the error lists exactly
those names, and placeholder names that are keys are never reported (they
are filtered out). -/
theorem c4_unsubstituted_variables (P : String) (M : List (String × String)) :
    Simple.process P M =
      (if ((placeholders (seqReplace M P.data)).filter
            (fun n => !((M.map Prod.fst).contains n))).isEmpty then
        .ok (String.mk (seqReplace M P.data))
      else
        .error ("Template contains unsubstituted variables: " ++
          String.intercalate ", "
            ((placeholders (seqReplace M P.data)).filter
              (fun n => !((M.map Prod.fst).contains n))))) := by
  have hsc : scanUnsub (M.map Prod.fst) (seqReplace M P.data) none =
      (placeholders (seqReplace M P.data)).filter
        (fun n => !((M.map Prod.fst).contains n)) :=
    scanUnsub_eq_filter (M.map Prod.fst) (seqReplace M P.data) none
  unfold Simple.process
  dsimp only
  rw [hsc]
  by_cases h1 : ((seqReplace M P.data).contains lbrace &&
      (seqReplace M P.data).contains rbrace) = true
  · rw [if_pos h1]
  · rw [if_neg h1]
    have h1' : (seqReplace M P.data).contains lbrace = false ∨
        (seqReplace M P.data).contains rbrace = false := by
      cases hA : (seqReplace M P.data).contains lbrace with
      | false => exact Or.inl rfl
      | true =>
        cases hB : (seqReplace M P.data).contains rbrace with
        | false => exact Or.inr rfl
        | true => exact absurd (by rw [hA, hB]; rfl) h1
    have hnil : placeholders (seqReplace M P.data) = [] := by
      rcases h1' with h | h
      · exact placeholders_no_lb _ (by simpa using h)
      · exact placeholders_no_rb _ (by simpa using h)
    rw [hnil]
    rfl

/-- C9 counterexample: resolving the same composition block against the same
empty registry, under two iteration orders of the same two-entry parameter
map (the identity order and its reverse, which are permutations of each
other), yields different export values — so the result does depend on the
map's iteration order. -/
theorem c9_counterexample :
    process_block [] (fun l => l)
        ⟨[.constStmt [] "A" (.mk "{a}" [("a", .literal "{b}"),
          ("b", .literal "x")])]⟩ =
      .ok [⟨[], "A", "x"⟩] ∧
    process_block [] List.reverse
        ⟨[.constStmt [] "A" (.mk "{a}" [("a", .literal "{b}"),
          ("b", .literal "x")])]⟩ =
      .ok [⟨[], "A", "{b}"⟩] ∧
    (∀ (l : List (String × String)), (List.reverse l).Perm l) :=
  ⟨by rfl, by rfl, fun l => List.reverse_perm l⟩

/-- C9 (amended): block resolution is a pure function of the block, the
registry and the parameter-map iteration order, so re-resolving with the
same order yields identical exports; moreover the plain-substitution render
itself is independent of the iteration order whenever the mapping has
unique, non-empty, brace-free keys and brace-free values and covers the
pattern's placeholders.  Without those provisos the exports can depend on
the iteration order (see the counterexample). -/
theorem c9_order_invariance (P : String) (M1 M2 : List (String × String))
    (hperm : M1.Perm M2) (hnd : (M1.map Prod.fst).Nodup)
    (hcov : ∀ n ∈ placeholders P.data, n ∈ M1.map Prod.fst)
    (hK : KeysOK M1) (hv : ValsBF M1) :
    Simple.process P M1 = Simple.process P M2 := by
  have hK2 : KeysOK M2 := fun kv hkv => hK kv (hperm.mem_iff.mpr hkv)
  have hv2 : ValsBF M2 := fun kv hkv => hv kv (hperm.mem_iff.mpr hkv)
  have hcov2 : ∀ n ∈ placeholders P.data, n ∈ M2.map Prod.fst := by
    intro n hn
    exact ((hperm.map Prod.fst).mem_iff).mp (hcov n hn)
  rw [process_covered P M1 hcov hK hv, process_covered P M2 hcov2 hK2 hv2,
    substAll_perm M1 M2 hperm hnd (fun kv hkv => (hK kv hkv).2) P.data]

/-- Witness for `c9_order_invariance` at a concrete mapping and its reversed
iteration order. -/
theorem c9_order_invariance_witness :
    Simple.process "{x} and {y}" [("x", "1"), ("y", "2")] =
      Simple.process "{x} and {y}" [("y", "2"), ("x", "1")] :=
  c9_order_invariance "{x} and {y}" [("x", "1"), ("y", "2")]
    [("y", "2"), ("x", "1")] (by decide) (by decide) (by decide) (by decide)
    (by decide)

/-! ## Scope claims: C2 and C3 -/

/-- The `let`-bound names of a statement prefix, in order. -/
def letNames (stmts : List Statement) : List String :=
  stmts.filterMap (fun st => match st with
    | .letStmt n _ => some n
    | .constStmt _ _ _ => none)

/-- Some statement's invocation contains a `Variable` reference to a name
that is not a `let` binding introduced strictly earlier in the block. -/
def HasBadRef (block : CompositionBlock) : Prop :=
  ∃ i : Fin block.statements.length,
    ∃ v ∈ callVars (block.statements.get i).value,
      v ∉ letNames (block.statements.take i.val)

instance (b : CompositionBlock) : Decidable (HasBadRef b) := by
  unfold HasBadRef; infer_instance

/-- Every `Variable` reference in every statement's invocation names a `let`
binding introduced strictly earlier in the block. -/
def GoodRefs (block : CompositionBlock) : Prop :=
  ∀ i : Fin block.statements.length,
    ∀ v ∈ callVars (block.statements.get i).value,
      v ∈ letNames (block.statements.take i.val)

instance (b : CompositionBlock) : Decidable (GoodRefs b) := by
  unfold GoodRefs; infer_instance

theorem get_local_some_mem (scope : Scope) (n : String) (v : String)
    (h : scope.get_local n = some v) : n ∈ scope.locals.map Prod.fst := by
  unfold Scope.get_local at h
  cases hf : scope.locals.find? (fun kv => kv.1 = n) with
  | none => rw [hf] at h; exact absurd h (by simp)
  | some kv =>
    have hmem := List.mem_of_find?_eq_some hf
    have hpred := List.find?_some hf
    have : kv.1 = n := by simpa using hpred
    rw [← this]
    exact List.mem_map.mpr ⟨kv, hmem, rfl⟩

mutual
/-- Evaluation success of a template call implies every variable it
references is bound in the scope's locals. -/
theorem call_ok_vars (reg : Registry)
    (ord : List (String × String) → List (String × String)) :
    ∀ (call : TemplateCall) (scope : Scope) (s : String),
      process_template_call reg ord call scope = .ok s →
      ∀ v ∈ callVars call, v ∈ scope.locals.map Prod.fst
  | .mk src ps, scope, s, h, v, hv => by
    cases hrp : resolve_params reg ord ps scope [] with
    | error e =>
      unfold process_template_call at h
      rw [hrp] at h
      exact absurd h (by simp)
    | ok resolved =>
      exact params_ok_vars reg ord ps scope [] resolved hrp v hv
/-- As `call_ok_vars`, for the parameter loop. -/
theorem params_ok_vars (reg : Registry)
    (ord : List (String × String) → List (String × String)) :
    ∀ (ps : List (String × ParamValue)) (scope : Scope)
      (acc res : List (String × String)),
      resolve_params reg ord ps scope acc = .ok res →
      ∀ v ∈ paramsVars ps, v ∈ scope.locals.map Prod.fst
  | [], _, _, _, _, v, hv => absurd hv (by simp [paramsVars])
  | (key, pv) :: rest, scope, acc, res, h, v, hv => by
    cases hrv : resolve_value reg ord pv scope with
    | error e =>
      unfold resolve_params at h
      rw [hrv] at h
      exact absurd h (by simp)
    | ok rv =>
      have hrest : resolve_params reg ord rest scope (mapInsert acc key rv) = .ok res := by
        unfold resolve_params at h
        rw [hrv] at h
        exact h
      rcases List.mem_append.mp (by simpa [paramsVars] using hv) with hl | hr
      · exact value_ok_vars reg ord pv scope rv hrv v hl
      · exact params_ok_vars reg ord rest scope _ res hrest v hr
/-- As `call_ok_vars`, for one parameter value. -/
theorem value_ok_vars (reg : Registry)
    (ord : List (String × String) → List (String × String)) :
    ∀ (pv : ParamValue) (scope : Scope) (s : String),
      resolve_value reg ord pv scope = .ok s →
      ∀ v ∈ valueVars pv, v ∈ scope.locals.map Prod.fst
  | .literal l, _, _, _, v, hv => absurd hv (by simp [valueVars])
  | .var n, scope, s, h, v, hv => by
    have hveq : v = n := by simpa [valueVars] using hv
    subst hveq
    cases hg : scope.get_local v with
    | none =>
      unfold resolve_value at h
      rw [hg] at h
      exact absurd h (by simp)
    | some w => exact get_local_some_mem scope v w hg
  | .nested c, scope, s, h, v, hv => by
    have hc : process_template_call reg ord c scope = .ok s := h
    exact call_ok_vars reg ord c scope s hc v (by simpa [valueVars] using hv)
end

/-- Evaluation success of the statement loop constrains every variable
reference to the locals present on entry or the `let`s of the preceding
statements. -/
theorem block_go_ok_vars (reg : Registry)
    (ord : List (String × String) → List (String × String)) :
    ∀ (stmts : List Statement) (scope : Scope) (out : Scope),
      process_block_go reg ord stmts scope = .ok out →
      ∀ (i : Fin stmts.length), ∀ v ∈ callVars (stmts.get i).value,
        v ∈ scope.locals.map Prod.fst ∨ v ∈ letNames (stmts.take i.val)
  | [], _, _, _, i, _, _ => absurd i.isLt (by simp)
  | .letStmt name value :: rest, scope, out, h, i, v, hv => by
    cases hpc : process_template_call reg ord value scope with
    | error e =>
      unfold process_block_go at h
      rw [hpc] at h
      exact absurd h (by simp)
    | ok resolved =>
      have hrest : process_block_go reg ord rest (scope.add_local name resolved) =
          .ok out := by
        unfold process_block_go at h
        rw [hpc] at h
        exact h
      match i with
      | ⟨0, _⟩ =>
        exact Or.inl (call_ok_vars reg ord value scope resolved hpc v hv)
      | ⟨j + 1, hj⟩ =>
        have hj' : j < rest.length := by simpa using hj
        have := block_go_ok_vars reg ord rest _ out hrest ⟨j, hj'⟩ v hv
        rcases this with hl | hr
        · have hl' : v ∈ ((name, resolved) :: scope.locals).map Prod.fst := hl
          rw [List.map_cons] at hl'
          rcases List.mem_cons.mp hl' with he | hm
          · right
            rw [he]
            simp [letNames]
          · exact Or.inl hm
        · right
          simp only [List.take_succ_cons, letNames, List.filterMap_cons]
          exact List.mem_cons_of_mem _ hr
  | .constStmt attrs name value :: rest, scope, out, h, i, v, hv => by
    cases hpc : process_template_call reg ord value scope with
    | error e =>
      unfold process_block_go at h
      rw [hpc] at h
      exact absurd h (by simp)
    | ok resolved =>
      have hrest : process_block_go reg ord rest (scope.add_export attrs name resolved) =
          .ok out := by
        unfold process_block_go at h
        rw [hpc] at h
        exact h
      match i with
      | ⟨0, _⟩ =>
        exact Or.inl (call_ok_vars reg ord value scope resolved hpc v hv)
      | ⟨j + 1, hj⟩ =>
        have hj' : j < rest.length := by simpa using hj
        have := block_go_ok_vars reg ord rest _ out hrest ⟨j, hj'⟩ v hv
        rcases this with hl | hr
        · exact Or.inl hl
        · right
          simpa [letNames, List.take_succ_cons, List.filterMap_cons] using hr

/-- C2: whenever any statement's invocation contains a `Variable` reference
to a name that was not introduced by a `let` strictly earlier in the block —
a reference to a later `let`, to a `const`, or a `let` referencing itself —
resolving the block fails with an error, for every registry and iteration
order; such a reference is never silently resolved.  (A self-reference
passes the validation pass, which inserts the `let` name before checking its
references, so its failure can surface only during evaluation, where the
name is bound only after its own invocation resolves — and the error that
surfaces first need not be a scope error: another failure, even one raised
while resolving an earlier parameter of the same statement, can preempt
it.) -/
theorem c2_scope_ordering (reg : Registry)
    (ord : List (String × String) → List (String × String))
    (block : CompositionBlock) (hbad : HasBadRef block) :
    ∃ msg, process_block reg ord block = .error msg := by
  cases hres : process_block reg ord block with
  | error e => exact ⟨e, rfl⟩
  | ok out =>
    exfalso
    have hgo : ∃ final, process_block_go reg ord block.statements Scope.new =
        .ok final := by
      unfold process_block at hres
      cases hval : validate_block block with
      | error e => rw [hval] at hres; exact absurd hres (by simp)
      | ok u =>
        rw [hval] at hres
        cases hg : process_block_go reg ord block.statements Scope.new with
        | error e => rw [hg] at hres; exact absurd hres (by simp)
        | ok final => exact ⟨final, rfl⟩
    obtain ⟨final, hgo⟩ := hgo
    obtain ⟨i, v, hv, hnotin⟩ := hbad
    rcases block_go_ok_vars reg ord block.statements Scope.new final hgo i v hv with
      hl | hr
    · simp [Scope.new] at hl
    · exact hnotin hr

/-- Witness for `c2_scope_ordering`: a `let` whose invocation references the
`let` itself is rejected — here after passing validation, during
evaluation. -/
theorem c2_scope_ordering_witness :
    HasBadRef ⟨[.letStmt "x" (.mk "{p}" [("p", .var "x")])]⟩ ∧
      (∃ msg, process_block [] (fun l => l)
        ⟨[.letStmt "x" (.mk "{p}" [("p", .var "x")])]⟩ = .error msg) :=
  ⟨by decide, c2_scope_ordering [] (fun l => l) _ (by decide)⟩

/-- The first name in the list that repeats an earlier name (or one of
`seen`), mirroring the running `defined_names` set of `validate_block`. -/
def firstDupAux : List String → List String → Option String
  | [], _ => none
  | n :: rest, seen => if n ∈ seen then some n else firstDupAux rest (n :: seen)

mutual
/-- Validation of references succeeds when every referenced variable is in
the defined set. -/
theorem validate_refs_ok : ∀ (call : TemplateCall) (defined : List String),
    (∀ v ∈ callVars call, v ∈ defined) → validate_references call defined = .ok ()
  | .mk src ps, defined, h =>
    validate_params_ok ps defined (fun v hv => h v (by simpa [callVars] using hv))
/-- As `validate_refs_ok`, for the parameter loop. -/
theorem validate_params_ok : ∀ (ps : List (String × ParamValue))
    (defined : List String),
    (∀ v ∈ paramsVars ps, v ∈ defined) → validate_params ps defined = .ok ()
  | [], _, _ => rfl
  | (key, pv) :: rest, defined, h => by
    have h1 : ∀ v ∈ valueVars pv, v ∈ defined := by
      intro v hv
      apply h
      simp only [paramsVars, List.mem_append]
      exact Or.inl hv
    have h2 : ∀ v ∈ paramsVars rest, v ∈ defined := by
      intro v hv
      apply h
      simp only [paramsVars, List.mem_append]
      exact Or.inr hv
    cases pv with
    | literal s =>
      show validate_params ((key, .literal s) :: rest) defined = .ok ()
      unfold validate_params
      exact validate_params_ok rest defined h2
    | var n =>
      have hn : n ∈ defined := h1 n (by simp [valueVars])
      have hb : defined.contains n = true := by simpa using hn
      show validate_params ((key, .var n) :: rest) defined = .ok ()
      unfold validate_params
      dsimp only
      rw [if_pos hb]
      exact validate_params_ok rest defined h2
    | nested c =>
      have hc := validate_refs_ok c defined
        (fun v hv => h1 v (by simpa [valueVars] using hv))
      show validate_params ((key, .nested c) :: rest) defined = .ok ()
      unfold validate_params
      dsimp only
      rw [hc]
      exact validate_params_ok rest defined h2
end

theorem firstDupAux_isSome_of_seen : ∀ (names seen : List String),
    (∃ m ∈ names, m ∈ seen) → (firstDupAux names seen).isSome
  | [], seen, h => absurd h (by simp)
  | n :: rest, seen, h => by
    by_cases hn : n ∈ seen
    · simp [firstDupAux, hn]
    · obtain ⟨m, hm, hms⟩ := h
      rcases List.mem_cons.mp hm with he | hmr
      · exact absurd (he ▸ hms) hn
      · simp only [firstDupAux, hn, if_false]
        exact firstDupAux_isSome_of_seen rest (n :: seen)
          ⟨m, hmr, List.mem_cons_of_mem _ hms⟩

theorem firstDupAux_isSome_of_dup : ∀ (names seen : List String),
    ¬ names.Nodup → (firstDupAux names seen).isSome
  | [], _, h => absurd List.nodup_nil h
  | n :: rest, seen, h => by
    by_cases hn : n ∈ seen
    · simp [firstDupAux, hn]
    · simp only [firstDupAux, hn, if_false]
      by_cases hnr : n ∈ rest
      · exact firstDupAux_isSome_of_seen rest (n :: seen)
          ⟨n, hnr, List.mem_cons_self _ _⟩
      · apply firstDupAux_isSome_of_dup rest (n :: seen)
        intro hnd
        exact h (List.nodup_cons.mpr ⟨hnr, hnd⟩)

theorem validate_go_err_of_dup :
    ∀ (stmts : List Statement) (dn ln : List String),
      (firstDupAux (stmts.map Statement.name) dn).isSome →
      ∃ msg, validate_block_go stmts dn ln = .error msg
  | [], _, _, h => absurd h (by simp [firstDupAux])
  | .letStmt name value :: rest, dn, ln, h => by
    by_cases hn : name ∈ dn
    · refine ⟨duplicateMsg name, ?_⟩
      unfold validate_block_go
      rw [show dn.contains name = true by simpa using hn]
      rfl
    · have h' : (firstDupAux (rest.map Statement.name) (name :: dn)).isSome := by
        simpa [firstDupAux, Statement.name, hn] using h
      unfold validate_block_go
      rw [show dn.contains name = false by simpa using hn]
      simp only [Bool.false_eq_true, if_false]
      cases hvr : validate_references value (name :: ln) with
      | error e => exact ⟨e, rfl⟩
      | ok u =>
        cases u
        exact validate_go_err_of_dup rest (name :: dn) (name :: ln) h'
  | .constStmt attrs name value :: rest, dn, ln, h => by
    by_cases hn : name ∈ dn
    · refine ⟨duplicateMsg name, ?_⟩
      unfold validate_block_go
      rw [show dn.contains name = true by simpa using hn]
      rfl
    · have h' : (firstDupAux (rest.map Statement.name) (name :: dn)).isSome := by
        simpa [firstDupAux, Statement.name, hn] using h
      unfold validate_block_go
      rw [show dn.contains name = false by simpa using hn]
      simp only [Bool.false_eq_true, if_false]
      cases hvr : validate_references value ln with
      | error e => exact ⟨e, rfl⟩
      | ok u =>
        cases u
        exact validate_go_err_of_dup rest (name :: dn) ln h'

theorem letNames_cons_let (n : String) (c : TemplateCall) (rest : List Statement) :
    letNames (.letStmt n c :: rest) = n :: letNames rest := by
  simp [letNames]

theorem letNames_cons_const (a : List String) (n : String) (c : TemplateCall)
    (rest : List Statement) :
    letNames (.constStmt a n c :: rest) = letNames rest := by
  simp [letNames]

theorem validate_go_dup :
    ∀ (stmts : List Statement) (dn ln : List String),
      (∀ i : Fin stmts.length, ∀ v ∈ callVars (stmts.get i).value,
        v ∈ ln ∨ v ∈ letNames (stmts.take i.val)) →
      ∀ d, firstDupAux (stmts.map Statement.name) dn = some d →
        validate_block_go stmts dn ln = .error (duplicateMsg d)
  | [], _, _, _, d, hd => absurd hd (by simp [firstDupAux])
  | .letStmt name value :: rest, dn, ln, href, d, hd => by
    by_cases hn : name ∈ dn
    · have hdeq : name = d := by
        simpa [firstDupAux, Statement.name, hn] using hd
      unfold validate_block_go
      rw [show dn.contains name = true by simpa using hn]
      rw [hdeq]
      rfl
    · have hd' : firstDupAux (rest.map Statement.name) (name :: dn) = some d := by
        simpa [firstDupAux, Statement.name, hn] using hd
      have hrefs0 : ∀ v ∈ callVars value, v ∈ ln := by
        intro v hv
        have := href ⟨0, by simp⟩ v (by simpa [Statement.value] using hv)
        simpa [letNames] using this
      have hvr : validate_references value (name :: ln) = .ok () :=
        validate_refs_ok value (name :: ln)
          (fun v hv => List.mem_cons_of_mem _ (hrefs0 v hv))
      unfold validate_block_go
      rw [show dn.contains name = false by simpa using hn]
      simp only [Bool.false_eq_true, if_false]
      rw [hvr]
      apply validate_go_dup rest (name :: dn) (name :: ln) ?_ d hd'
      intro i v hv
      have := href ⟨i.val + 1, by simp [i.isLt]⟩ v (by simpa using hv)
      rcases this with hl | hr
      · exact Or.inl (List.mem_cons_of_mem _ hl)
      · rw [List.take_succ_cons, letNames_cons_let] at hr
        rcases List.mem_cons.mp hr with he | hm
        · exact Or.inl (by rw [he]; exact List.mem_cons_self _ _)
        · exact Or.inr hm
  | .constStmt attrs name value :: rest, dn, ln, href, d, hd => by
    by_cases hn : name ∈ dn
    · have hdeq : name = d := by
        simpa [firstDupAux, Statement.name, hn] using hd
      unfold validate_block_go
      rw [show dn.contains name = true by simpa using hn]
      rw [hdeq]
      rfl
    · have hd' : firstDupAux (rest.map Statement.name) (name :: dn) = some d := by
        simpa [firstDupAux, Statement.name, hn] using hd
      have hrefs0 : ∀ v ∈ callVars value, v ∈ ln := by
        intro v hv
        have := href ⟨0, by simp⟩ v (by simpa [Statement.value] using hv)
        simpa [letNames] using this
      have hvr : validate_references value ln = .ok () :=
        validate_refs_ok value ln hrefs0
      unfold validate_block_go
      rw [show dn.contains name = false by simpa using hn]
      simp only [Bool.false_eq_true, if_false]
      rw [hvr]
      apply validate_go_dup rest (name :: dn) ln ?_ d hd'
      intro i v hv
      have := href ⟨i.val + 1, by simp [i.isLt]⟩ v (by simpa using hv)
      rcases this with hl | hr
      · exact Or.inl hl
      · rw [List.take_succ_cons, letNames_cons_const] at hr
        exact Or.inr hr

theorem process_block_err_of_validate (reg : Registry)
    (ord : List (String × String) → List (String × String))
    (block : CompositionBlock) (e : String)
    (h : validate_block block = .error e) :
    process_block reg ord block = .error e := by
  unfold process_block
  rw [h]

/-- C3: whenever two statements of a block bind the same name (any mix of
`let` and `const`), resolving the block fails with an error, for every
registry and iteration order — the earlier binding is never silently
overwritten; and when the block has no scope violations besides the
duplicate, the error is the duplicate-definition message naming the first
repeated identifier. -/
theorem c3_duplicate_names (reg : Registry)
    (ord : List (String × String) → List (String × String))
    (block : CompositionBlock)
    (hdup : ¬ (block.statements.map Statement.name).Nodup) :
    (∃ msg, process_block reg ord block = .error msg) ∧
    (GoodRefs block → ∃ d,
      firstDupAux (block.statements.map Statement.name) [] = some d ∧
      process_block reg ord block = .error (duplicateMsg d)) := by
  constructor
  · obtain ⟨msg, hmsg⟩ := validate_go_err_of_dup block.statements [] []
      (firstDupAux_isSome_of_dup _ [] hdup)
    exact ⟨msg, process_block_err_of_validate reg ord block msg hmsg⟩
  · intro hgood
    obtain ⟨d, hd⟩ := Option.isSome_iff_exists.mp
      (firstDupAux_isSome_of_dup (block.statements.map Statement.name) [] hdup)
    refine ⟨d, hd, ?_⟩
    apply process_block_err_of_validate
    apply validate_go_dup block.statements [] [] ?_ d hd
    intro i v hv
    exact Or.inr (hgood i v hv)

/-- Witness for `c3_duplicate_names`: `let x = ...; let x = ...;` fails with
the duplicate-definition error naming `x`. -/
theorem c3_duplicate_names_witness :
    (¬ ((⟨[.letStmt "x" (.mk "t" []), .letStmt "x" (.mk "t" [])]⟩ :
      CompositionBlock).statements.map Statement.name).Nodup) ∧
    (∃ msg, process_block [] (fun l => l)
      ⟨[.letStmt "x" (.mk "t" []), .letStmt "x" (.mk "t" [])]⟩ = .error msg) ∧
    (∃ d, firstDupAux (([.letStmt "x" (.mk "t" []),
        .letStmt "x" (.mk "t" [])] : List Statement).map Statement.name) [] =
        some d ∧
      process_block [] (fun l => l)
        ⟨[.letStmt "x" (.mk "t" []), .letStmt "x" (.mk "t" [])]⟩ =
        .error (duplicateMsg d)) := by
  have h := c3_duplicate_names [] (fun l => l)
    ⟨[.letStmt "x" (.mk "t" []), .letStmt "x" (.mk "t" [])]⟩ (by decide)
  exact ⟨by decide, h.1, h.2 (by decide)⟩

/-- The engine's unsubstituted-variables message is not a scope-error
message: the scope errors all start with `U` or `D`, this one with `T`. -/
theorem unsub_msg_not_scope (n : String) :
    ("Template contains unsubstituted variables: q" : String) ≠
        undefinedVarMsg n ∧
      ("Template contains unsubstituted variables: q" : String) ≠
        duplicateMsg n := by
  constructor
  · intro h
    have h1 : ("Template contains unsubstituted variables: q" : String).data.head? =
        some 'T' := rfl
    have h2 : (undefinedVarMsg n).data.head? = some 'U' := rfl
    rw [h, h2] at h1
    exact absurd h1 (by decide)
  · intro h
    have h1 : ("Template contains unsubstituted variables: q" : String).data.head? =
        some 'T' := rfl
    have h2 : (duplicateMsg n).data.head? = some 'D' := rfl
    rw [h, h2] at h1
    exact absurd h1 (by decide)

/-- The undefined-variable message is never a duplicate-definition
message. -/
theorem undef_msg_ne_dup_msg (m n : String) : undefinedVarMsg m ≠ duplicateMsg n := by
  intro h
  have h1 : (undefinedVarMsg m).data.head? = some 'U' := rfl
  have h2 : (duplicateMsg n).data.head? = some 'D' := rfl
  rw [h, h2] at h1
  exact absurd h1 (by decide)

/-- C2 counterexample to the claim as stated: a block whose only statement
is a self-referencing `let` (a reference to a name that is not a strictly
earlier `let`, in the second parameter) passes validation, and resolution
then fails with the engine error raised while resolving the same
statement's *first* parameter — not with a scope error, even though no
earlier statement exists. -/
theorem c2_counterexample :
    HasBadRef ⟨[.letStmt "x"
      (.mk "t" [("a", .nested (.mk "{q}" [])), ("p", .var "x")])]⟩ ∧
    process_block [] (fun l => l)
        ⟨[.letStmt "x"
          (.mk "t" [("a", .nested (.mk "{q}" [])), ("p", .var "x")])]⟩ =
      .error "Template contains unsubstituted variables: q" ∧
    (∀ n : String,
      ("Template contains unsubstituted variables: q" : String) ≠
          undefinedVarMsg n ∧
        ("Template contains unsubstituted variables: q" : String) ≠
          duplicateMsg n) :=
  ⟨by decide, by rfl, unsub_msg_not_scope⟩

/-- C3 counterexample to the claim as stated: a block with a duplicated name
whose first statement also contains an undefined reference fails with the
undefined-variable error, not with a duplicate-name error naming the
repeated identifier. -/
theorem c3_counterexample :
    (¬ (((⟨[.letStmt "a" (.mk "t" [("p", .var "z")]),
          .letStmt "x" (.mk "t" []), .letStmt "x" (.mk "t" [])]⟩ :
        CompositionBlock).statements.map Statement.name).Nodup)) ∧
    process_block [] (fun l => l)
        ⟨[.letStmt "a" (.mk "t" [("p", .var "z")]),
          .letStmt "x" (.mk "t" []), .letStmt "x" (.mk "t" [])]⟩ =
      .error (undefinedVarMsg "z") ∧
    (∀ n : String, undefinedVarMsg "z" ≠ duplicateMsg n) :=
  ⟨by decide, by rfl, fun n => undef_msg_ne_dup_msg "z" n⟩

/-! ## Claims C5 and C6: selection and parameter resolution -/

/-- The selection rule in the spec's words: a registry hit uses that
Template's pattern and its engine, defaulting to the plain-substitution
("simple") engine when none is given; a miss uses the source string itself
as an inline pattern with the default engine.  Stated separately from the
code so the code's two inlined copies can be compared against it. -/
def specSelect (reg : Registry) (source : String) : String × String :=
  match reg.get source with
  | some t => (t.template, t.engine.getD "simple")
  | none => (source, "simple")

/-- C5: in both the composition-block path (`process_template_call`) and the
direct-invocation path (`process_template`), resolution renders with exactly
the pattern and engine chosen by the spec's selection rule `specSelect`:
registry hit → that template's pattern and engine (default `simple` when the
template specifies none); miss → the source string as an inline pattern with
the default engine. -/
theorem c5_engine_selection (reg : Registry)
    (ord : List (String × String) → List (String × String)) :
    (∀ (call : TemplateCall) (scope : Scope),
      process_template_call reg ord call scope =
        match resolve_params reg ord call.params scope [] with
        | .error e => .error e
        | .ok resolved =>
          Engines.process (specSelect reg call.source).2
            (specSelect reg call.source).1 (ord resolved)) ∧
    (∀ (fuel : Nat) (input : TomplateInput),
      process_template reg ord (fuel + 1) input =
        match resolve_direct_params reg ord fuel input.params [] with
        | .error e => .error e
        | .ok params =>
          Engines.process (specSelect reg input.template_name).2
            (specSelect reg input.template_name).1 (ord params)) := by
  constructor
  · intro call scope
    cases call with
    | mk src ps =>
      unfold process_template_call
      dsimp only [TemplateCall.source, TemplateCall.params]
      cases hrp : resolve_params reg ord ps scope [] with
      | error e => rfl
      | ok resolved =>
        unfold specSelect
        cases hget : reg.get src with
        | some t => rfl
        | none => rfl
  · intro fuel input
    unfold process_template
    cases hrp : resolve_direct_params reg ord fuel input.params [] with
    | error e => rfl
    | ok params =>
      unfold specSelect
      cases hget : reg.get input.template_name with
      | some t => rfl
      | none => rfl

/-- C6 evidence: in the direct-invocation path a `Nested` parameter is
extracted from the nested expansion by printing the string-literal token and
trimming the quote characters (`to_string` then `trim_matches('"')`).  For a
nested result containing a double quote this yields the escaped source text
with a trailing escaped quote also eaten — not the string the nested
invocation resolves to.  The composition-block path resolves the same
nesting correctly. -/
theorem c6_nested_parameter_bug :
    process_template [] (fun l => l) 10
        ⟨"{v}", [("v", .macroCall [.litTok (.str "say \"hi\"")])]⟩ =
      .ok "say \\\"hi\\" ∧
    process_template [] (fun l => l) 10 ⟨"say \"hi\"", []⟩ = .ok "say \"hi\"" ∧
    process_template_call [] (fun l => l)
        (.mk "{v}" [("v", .nested (.mk "say \"hi\"" []))]) Scope.new =
      .ok "say \"hi\"" ∧
    ("say \\\"hi\\" : String) ≠ "say \"hi\"" :=
  ⟨by rfl, by rfl, by rfl, by decide⟩

/-! ## Eager-rewriter claims: C7, C8, C10 -/

/-- `Lit::parse` never consumes an identifier other than `true`/`false`. -/
theorem parseLitChunk_ident (s : String) (h1 : s ≠ "true") (h2 : s ≠ "false")
    (r : List TokenTree) : parseLitChunk (.ident s :: r) = none := by
  simp only [parseLitChunk]
  rw [if_neg]
  rintro (h | h)
  · exact h1 h
  · exact h2 h

/-- `Lit::parse` never consumes starting from a punct other than `-`. -/
theorem parseLitChunk_punct_ne (c : Char) (hc : c ≠ '-') (r : List TokenTree) :
    parseLitChunk (.punct c :: r) = none := by
  cases r with
  | nil => rfl
  | cons t2 r2 =>
    cases t2 with
    | litTok l =>
      cases l with
      | str s => rfl
      | int s => simp only [parseLitChunk]; rw [if_neg hc]
      | float s => simp only [parseLitChunk]; rw [if_neg hc]
    | ident s2 => rfl
    | punct c2 => rfl
    | group d g => rfl

theorem skipComma_nil : skipComma [] = [] := rfl

theorem skipComma_comma (r : List TokenTree) :
    skipComma (.punct ',' :: r) = r := rfl

theorem skipComma_cons_ne (t : TokenTree) (h : t ≠ .punct ',')
    (r : List TokenTree) : skipComma (t :: r) = t :: r := by
  cases t with
  | punct c =>
    simp only [skipComma]
    rw [if_neg]
    intro hc
    exact h (by rw [hc])
  | ident s => rfl
  | litTok l => rfl
  | group d g => rfl

theorem concatGo_nil (f : Nat) : concatGo f [] = .ok [] := by
  cases f <;> rfl

theorem concatGo_step (f : Nat) (t : TokenTree) (r : List TokenTree) :
    concatGo (f+1) (t :: r) =
      match concatStep (t :: r) with
      | .error e => .error e
      | .ok (part, remaining) =>
        match concatGo f remaining with
        | .error e => .error e
        | .ok parts => .ok (pushVal part parts) := rfl

/-- A string literal at the head of the stream: the first attempt succeeds
and pushes its value. -/
theorem concatStep_strLit (v : String) (r : List TokenTree) :
    concatStep (.litTok (.str v) :: r) = .ok (some v, skipComma r) := rfl

/-- A non-string literal chunk is consumed by the failed string-literal
attempt; when what follows is not itself a literal chunk, the remaining
attempts fail without consuming and the skip branch drops one more token
tree (plus one optional comma). -/
theorem concatStep_dropTail (stream rem : List TokenTree) (k : LitKind)
    (v : String) (hch : parseLitChunk stream = some (k, v, rem))
    (hk : k ≠ .strK) (hrem : parseLitChunk rem = none)
    (t2 : TokenTree) (r2 : List TokenTree) (he : rem = t2 :: r2) :
    concatStep stream = .ok (none, skipComma r2) := by
  unfold concatStep
  rw [hch]
  cases k with
  | strK => exact absurd rfl hk
  | intK =>
    dsimp only
    rw [hrem, he]
    rfl
  | floatK =>
    dsimp only
    rw [hrem, he]
    rfl
  | boolK =>
    dsimp only
    rw [hrem, he]
    rfl

/-- A non-string literal chunk at the very end of the stream is consumed by
the failed string-literal attempt, and the skip branch then faces an empty
stream: the unexpected-end-of-input error. -/
theorem concatStep_dropEnd (stream : List TokenTree) (k : LitKind)
    (v : String) (hch : parseLitChunk stream = some (k, v, []))
    (hk : k ≠ .strK) :
    concatStep stream = .error "Unexpected end of input" := by
  unfold concatStep
  rw [hch]
  cases k with
  | strK => exact absurd rfl hk
  | intK => dsimp only; rfl
  | floatK => dsimp only; rfl
  | boolK => dsimp only; rfl

/-- A head token no literal parse consumes: all four attempts fail without
advancing and the skip branch drops exactly that token tree (plus one
optional comma). -/
theorem concatStep_skipOne (t : TokenTree) (r : List TokenTree)
    (hch : parseLitChunk (t :: r) = none) :
    concatStep (t :: r) = .ok (none, skipComma r) := by
  unfold concatStep
  rw [hch]
  rfl

/-- An element of a well-formed comma-separated `concat!` argument list, as
seen after the eager pass: a string literal (the shape resolved invocations
and separator strings take), a non-string literal chunk, or a single token
no literal parse consumes. -/
inductive CElem where
  | strE (v : String)
  | dropLit (ts : List TokenTree)
  | skipTok (t : TokenTree)

/-- The tokens of one element. -/
def elemTokens : CElem → List TokenTree
  | .strE v => [.litTok (.str v)]
  | .dropLit ts => ts
  | .skipTok t => [t]

/-- What an element contributes to the collected parts: only string-literal
elements contribute their value. -/
def elemVal : CElem → List String
  | .strE v => [v]
  | .dropLit _ => []
  | .skipTok _ => []

/-- The comma-separated token stream of an element list. -/
def concatTokens : List CElem → List TokenTree
  | [] => []
  | [e] => elemTokens e
  | e :: e2 :: rest => elemTokens e ++ .punct ',' :: concatTokens (e2 :: rest)

/-- Side condition for `dropLit`: the non-string literal chunks — an
integer, float, or boolean literal, or a `-` followed by a numeric
literal. -/
def goodDropLit : List TokenTree → Bool
  | [.litTok (.int _)] => true
  | [.litTok (.float _)] => true
  | [.ident s] => s == "true" || s == "false"
  | [.punct c, .litTok (.int _)] => c == '-'
  | [.punct c, .litTok (.float _)] => c == '-'
  | _ => false

/-- Side condition for `skipTok`: a single token no literal parse attempt
consumes — not a literal token, not a `true`/`false` identifier, and not
the separator comma itself. -/
def goodSkipTok : TokenTree → Bool
  | .litTok _ => false
  | .ident s => !(s == "true") && !(s == "false")
  | .punct c => !(c == ',')
  | .group _ _ => true

def goodElem : CElem → Bool
  | .strE _ => true
  | .dropLit ts => goodDropLit ts
  | .skipTok t => goodSkipTok t

/-- The value of the element loop on a well-formed element list: string
elements contribute their values in order, the other elements contribute
nothing, and a trailing non-string literal element leaves the skip branch
at the end of the stream — the unexpected-end-of-input error. -/
def concatElemsResult : List CElem → Except String (List String)
  | [] => .ok []
  | [.dropLit _] => .error "Unexpected end of input"
  | [e] => .ok (elemVal e)
  | e :: e2 :: rest =>
    match concatElemsResult (e2 :: rest) with
    | .error er => .error er
    | .ok parts => .ok (elemVal e ++ parts)

theorem goodDropLit_cases (ts : List TokenTree) (h : goodDropLit ts = true) :
    (∃ s, ts = [.litTok (.int s)]) ∨ (∃ s, ts = [.litTok (.float s)]) ∨
    ts = [.ident "true"] ∨ ts = [.ident "false"] ∨
    (∃ s, ts = [.punct '-', .litTok (.int s)]) ∨
    (∃ s, ts = [.punct '-', .litTok (.float s)]) := by
  unfold goodDropLit at h
  split at h
  · rename_i s
    exact .inl ⟨s, rfl⟩
  · rename_i s
    exact .inr (.inl ⟨s, rfl⟩)
  · rename_i s
    simp only [Bool.or_eq_true, beq_iff_eq] at h
    rcases h with rfl | rfl
    · exact .inr (.inr (.inl rfl))
    · exact .inr (.inr (.inr (.inl rfl)))
  · rename_i c s
    simp only [beq_iff_eq] at h
    subst h
    exact .inr (.inr (.inr (.inr (.inl ⟨s, rfl⟩))))
  · rename_i c s
    simp only [beq_iff_eq] at h
    subst h
    exact .inr (.inr (.inr (.inr (.inr ⟨s, rfl⟩))))
  · simp at h

/-- No well-formed element starts with a comma, so the optional comma after
a step never eats into the next element. -/
theorem skipComma_elemTokens_append (e : CElem) (h : goodElem e = true)
    (X : List TokenTree) :
    skipComma (elemTokens e ++ X) = elemTokens e ++ X := by
  cases e with
  | strE v => rfl
  | dropLit ts =>
    rcases goodDropLit_cases ts h with ⟨s, rfl⟩ | ⟨s, rfl⟩ | rfl | rfl |
      ⟨s, rfl⟩ | ⟨s, rfl⟩
    · rfl
    · rfl
    · rfl
    · rfl
    · simp only [elemTokens, List.cons_append, skipComma]
      rw [if_neg (by decide)]
    · simp only [elemTokens, List.cons_append, skipComma]
      rw [if_neg (by decide)]
  | skipTok t =>
    cases t with
    | punct c =>
      have hc : ¬c = ',' := by simpa [goodElem, goodSkipTok] using h
      simp only [elemTokens, List.cons_append, skipComma]
      rw [if_neg hc]
    | ident s => rfl
    | litTok l => simp [goodElem, goodSkipTok] at h
    | group d g => rfl

theorem skipComma_concatTokens (e : CElem) (rest : List CElem)
    (h : goodElem e = true) :
    skipComma (concatTokens (e :: rest)) = concatTokens (e :: rest) := by
  cases rest with
  | nil =>
    have h2 := skipComma_elemTokens_append e h []
    simpa [concatTokens] using h2
  | cons e2 rest2 =>
    exact skipComma_elemTokens_append e h (.punct ',' :: concatTokens (e2 :: rest2))

theorem concatElemsResult_cons (e e2 : CElem) (rest : List CElem) :
    concatElemsResult (e :: e2 :: rest) =
      match concatElemsResult (e2 :: rest) with
      | .error er => .error er
      | .ok parts => .ok (elemVal e ++ parts) := by
  cases e <;> rfl

/-- The element loop on the comma-separated stream of a well-formed element
list computes exactly `concatElemsResult`. -/
theorem concatGo_elems (es : List CElem) :
    (∀ e ∈ es, goodElem e = true) →
    ∀ fuel, (concatTokens es).length ≤ fuel →
    concatGo fuel (concatTokens es) = concatElemsResult es := by
  induction es with
  | nil =>
    intro _ fuel _
    exact concatGo_nil fuel
  | cons e rest ih =>
    intro hgood fuel hf
    have hge : goodElem e = true := hgood e (by simp)
    cases rest with
    | nil =>
      cases e with
      | strE v =>
        cases fuel with
        | zero => simp [concatTokens, elemTokens] at hf
        | succ f =>
          show concatGo (f+1) [.litTok (.str v)] = _
          rw [concatGo_step, concatStep_strLit]
          dsimp only
          rw [skipComma_nil, concatGo_nil]
          rfl
      | dropLit ts =>
        rcases goodDropLit_cases ts hge with ⟨s, rfl⟩ | ⟨s, rfl⟩ | rfl | rfl |
          ⟨s, rfl⟩ | ⟨s, rfl⟩
        · cases fuel with
          | zero => simp [concatTokens, elemTokens] at hf
          | succ f =>
            show concatGo (f+1) [.litTok (.int s)] = _
            rw [concatGo_step,
              concatStep_dropEnd [.litTok (.int s)] .intK s rfl (by decide)]
            rfl
        · cases fuel with
          | zero => simp [concatTokens, elemTokens] at hf
          | succ f =>
            show concatGo (f+1) [.litTok (.float s)] = _
            rw [concatGo_step,
              concatStep_dropEnd [.litTok (.float s)] .floatK s rfl (by decide)]
            rfl
        · cases fuel with
          | zero => simp [concatTokens, elemTokens] at hf
          | succ f =>
            show concatGo (f+1) [.ident "true"] = _
            rw [concatGo_step,
              concatStep_dropEnd [.ident "true"] .boolK "true" (by rfl)
                (by decide)]
            rfl
        · cases fuel with
          | zero => simp [concatTokens, elemTokens] at hf
          | succ f =>
            show concatGo (f+1) [.ident "false"] = _
            rw [concatGo_step,
              concatStep_dropEnd [.ident "false"] .boolK "false" (by rfl)
                (by decide)]
            rfl
        · cases fuel with
          | zero => simp [concatTokens, elemTokens] at hf
          | succ f =>
            show concatGo (f+1) [.punct '-', .litTok (.int s)] = _
            rw [concatGo_step,
              concatStep_dropEnd [.punct '-', .litTok (.int s)] .intK
                ("-" ++ s) (by simp [parseLitChunk]) (by decide)]
            rfl
        · cases fuel with
          | zero => simp [concatTokens, elemTokens] at hf
          | succ f =>
            show concatGo (f+1) [.punct '-', .litTok (.float s)] = _
            rw [concatGo_step,
              concatStep_dropEnd [.punct '-', .litTok (.float s)] .floatK
                ("-" ++ s) (by simp [parseLitChunk]) (by decide)]
            rfl
      | skipTok t =>
        cases fuel with
        | zero => simp [concatTokens, elemTokens] at hf
        | succ f =>
          have hch : parseLitChunk [t] = none := by
            cases t with
            | punct c => rfl
            | ident s =>
              have h12 : ¬s = "true" ∧ ¬s = "false" := by
                simpa [goodElem, goodSkipTok] using hge
              exact parseLitChunk_ident s h12.1 h12.2 []
            | litTok l => simp [goodElem, goodSkipTok] at hge
            | group d g => rfl
          show concatGo (f+1) [t] = _
          rw [concatGo_step, concatStep_skipOne t [] hch]
          dsimp only
          rw [skipComma_nil, concatGo_nil]
          rfl
    | cons e2 rest2 =>
      have hgood2 : ∀ x ∈ e2 :: rest2, goodElem x = true :=
        fun x hx => hgood x (List.mem_cons_of_mem e hx)
      have hg2 : goodElem e2 = true := hgood2 e2 (by simp)
      have hsc : skipComma (concatTokens (e2 :: rest2)) =
          concatTokens (e2 :: rest2) := skipComma_concatTokens e2 rest2 hg2
      cases e with
      | strE v =>
        cases fuel with
        | zero => simp [concatTokens, elemTokens] at hf
        | succ f =>
          have hlen : (concatTokens (e2 :: rest2)).length ≤ f := by
            simp [concatTokens, elemTokens] at hf
            omega
          have hrec := ih hgood2 f hlen
          show concatGo (f+1)
              (.litTok (.str v) :: .punct ',' :: concatTokens (e2 :: rest2)) = _
          rw [concatGo_step, concatStep_strLit]
          dsimp only
          rw [skipComma_comma, hrec, concatElemsResult_cons]
          cases concatElemsResult (e2 :: rest2) <;> rfl
      | dropLit ts =>
        rcases goodDropLit_cases ts hge with ⟨s, rfl⟩ | ⟨s, rfl⟩ | rfl | rfl |
          ⟨s, rfl⟩ | ⟨s, rfl⟩
        · cases fuel with
          | zero => simp [concatTokens, elemTokens] at hf
          | succ f =>
            have hlen : (concatTokens (e2 :: rest2)).length ≤ f := by
              simp [concatTokens, elemTokens] at hf
              omega
            have hrec := ih hgood2 f hlen
            show concatGo (f+1)
                (.litTok (.int s) :: .punct ',' :: concatTokens (e2 :: rest2)) = _
            rw [concatGo_step,
              concatStep_dropTail
                (.litTok (.int s) :: .punct ',' :: concatTokens (e2 :: rest2))
                (.punct ',' :: concatTokens (e2 :: rest2)) .intK s rfl
                (by decide) (parseLitChunk_punct_ne ',' (by decide) _)
                (.punct ',') (concatTokens (e2 :: rest2)) rfl]
            dsimp only
            rw [hsc, hrec, concatElemsResult_cons]
            cases concatElemsResult (e2 :: rest2) <;> rfl
        · cases fuel with
          | zero => simp [concatTokens, elemTokens] at hf
          | succ f =>
            have hlen : (concatTokens (e2 :: rest2)).length ≤ f := by
              simp [concatTokens, elemTokens] at hf
              omega
            have hrec := ih hgood2 f hlen
            show concatGo (f+1)
                (.litTok (.float s) :: .punct ',' :: concatTokens (e2 :: rest2)) = _
            rw [concatGo_step,
              concatStep_dropTail
                (.litTok (.float s) :: .punct ',' :: concatTokens (e2 :: rest2))
                (.punct ',' :: concatTokens (e2 :: rest2)) .floatK s rfl
                (by decide) (parseLitChunk_punct_ne ',' (by decide) _)
                (.punct ',') (concatTokens (e2 :: rest2)) rfl]
            dsimp only
            rw [hsc, hrec, concatElemsResult_cons]
            cases concatElemsResult (e2 :: rest2) <;> rfl
        · cases fuel with
          | zero => simp [concatTokens, elemTokens] at hf
          | succ f =>
            have hlen : (concatTokens (e2 :: rest2)).length ≤ f := by
              simp [concatTokens, elemTokens] at hf
              omega
            have hrec := ih hgood2 f hlen
            show concatGo (f+1)
                (.ident "true" :: .punct ',' :: concatTokens (e2 :: rest2)) = _
            rw [concatGo_step,
              concatStep_dropTail
                (.ident "true" :: .punct ',' :: concatTokens (e2 :: rest2))
                (.punct ',' :: concatTokens (e2 :: rest2)) .boolK "true"
                (by simp [parseLitChunk]) (by decide)
                (parseLitChunk_punct_ne ',' (by decide) _)
                (.punct ',') (concatTokens (e2 :: rest2)) rfl]
            dsimp only
            rw [hsc, hrec, concatElemsResult_cons]
            cases concatElemsResult (e2 :: rest2) <;> rfl
        · cases fuel with
          | zero => simp [concatTokens, elemTokens] at hf
          | succ f =>
            have hlen : (concatTokens (e2 :: rest2)).length ≤ f := by
              simp [concatTokens, elemTokens] at hf
              omega
            have hrec := ih hgood2 f hlen
            show concatGo (f+1)
                (.ident "false" :: .punct ',' :: concatTokens (e2 :: rest2)) = _
            rw [concatGo_step,
              concatStep_dropTail
                (.ident "false" :: .punct ',' :: concatTokens (e2 :: rest2))
                (.punct ',' :: concatTokens (e2 :: rest2)) .boolK "false"
                (by simp [parseLitChunk]) (by decide)
                (parseLitChunk_punct_ne ',' (by decide) _)
                (.punct ',') (concatTokens (e2 :: rest2)) rfl]
            dsimp only
            rw [hsc, hrec, concatElemsResult_cons]
            cases concatElemsResult (e2 :: rest2) <;> rfl
        · cases fuel with
          | zero => simp [concatTokens, elemTokens] at hf
          | succ f =>
            have hlen : (concatTokens (e2 :: rest2)).length ≤ f := by
              simp [concatTokens, elemTokens] at hf
              omega
            have hrec := ih hgood2 f hlen
            show concatGo (f+1) (.punct '-' :: .litTok (.int s) :: .punct ',' ::
                concatTokens (e2 :: rest2)) = _
            rw [concatGo_step,
              concatStep_dropTail
                (.punct '-' :: .litTok (.int s) :: .punct ',' ::
                  concatTokens (e2 :: rest2))
                (.punct ',' :: concatTokens (e2 :: rest2)) .intK ("-" ++ s)
                (by simp [parseLitChunk]) (by decide)
                (parseLitChunk_punct_ne ',' (by decide) _)
                (.punct ',') (concatTokens (e2 :: rest2)) rfl]
            dsimp only
            rw [hsc, hrec, concatElemsResult_cons]
            cases concatElemsResult (e2 :: rest2) <;> rfl
        · cases fuel with
          | zero => simp [concatTokens, elemTokens] at hf
          | succ f =>
            have hlen : (concatTokens (e2 :: rest2)).length ≤ f := by
              simp [concatTokens, elemTokens] at hf
              omega
            have hrec := ih hgood2 f hlen
            show concatGo (f+1) (.punct '-' :: .litTok (.float s) :: .punct ',' ::
                concatTokens (e2 :: rest2)) = _
            rw [concatGo_step,
              concatStep_dropTail
                (.punct '-' :: .litTok (.float s) :: .punct ',' ::
                  concatTokens (e2 :: rest2))
                (.punct ',' :: concatTokens (e2 :: rest2)) .floatK ("-" ++ s)
                (by simp [parseLitChunk]) (by decide)
                (parseLitChunk_punct_ne ',' (by decide) _)
                (.punct ',') (concatTokens (e2 :: rest2)) rfl]
            dsimp only
            rw [hsc, hrec, concatElemsResult_cons]
            cases concatElemsResult (e2 :: rest2) <;> rfl
      | skipTok t =>
        cases fuel with
        | zero => simp [concatTokens, elemTokens] at hf
        | succ f =>
          have hlen : (concatTokens (e2 :: rest2)).length ≤ f := by
            simp [concatTokens, elemTokens] at hf
            omega
          have hrec := ih hgood2 f hlen
          have hch : parseLitChunk
              (t :: .punct ',' :: concatTokens (e2 :: rest2)) = none := by
            cases t with
            | punct c => rfl
            | ident s =>
              have h12 : ¬s = "true" ∧ ¬s = "false" := by
                simpa [goodElem, goodSkipTok] using hge
              exact parseLitChunk_ident s h12.1 h12.2 _
            | litTok l => simp [goodElem, goodSkipTok] at hge
            | group d g => rfl
          show concatGo (f+1)
              (t :: .punct ',' :: concatTokens (e2 :: rest2)) = _
          rw [concatGo_step, concatStep_skipOne _ _ hch]
          dsimp only
          rw [skipComma_comma, hrec, concatElemsResult_cons]
          cases concatElemsResult (e2 :: rest2) <;> rfl

/-- On a list of string-literal elements the loop collects exactly their
values, in order. -/
theorem concatElemsResult_strE : ∀ vs : List String,
    concatElemsResult (vs.map CElem.strE) = .ok vs
  | [] => rfl
  | [v] => rfl
  | v :: v2 :: vs => by
    simp only [List.map_cons]
    rw [concatElemsResult_cons]
    have ih := concatElemsResult_strE (v2 :: vs)
    simp only [List.map_cons] at ih
    rw [ih]
    rfl

/-- C8 (amended): for every concatenation construct whose inner tokens
eager-process to a comma-separated sequence of string-literal elements —
the shape resolved invocations and separator strings take — evaluation
succeeds and returns the string-literal token holding the elements' values
joined with no separator, each element preserved verbatim in position.
(Literal elements of any other kind are consumed by the failed
string-literal parse attempt and dropped; see the counterexample.) -/
theorem c8_concat_literal_join (reg : Registry)
    (ord : List (String × String) → List (String × String)) (fuel : Nat)
    (ts : List TokenTree) (vs : List String)
    (hproc : process_eager reg ord fuel ts =
      .ok (concatTokens (vs.map CElem.strE))) :
    evaluate_concat reg ord (fuel + 1) ts =
      .ok [.litTok (.str (String.join vs))] := by
  unfold evaluate_concat
  rw [hproc]
  dsimp only
  have hgood : ∀ e ∈ vs.map CElem.strE, goodElem e = true := by
    intro e he
    rcases List.mem_map.mp he with ⟨v, hv, rfl⟩
    rfl
  have h1 : concatParts (concatTokens (vs.map CElem.strE)) = .ok vs := by
    unfold concatParts
    rw [concatGo_elems _ hgood _ (Nat.le_refl _), concatElemsResult_strE]
  rw [h1]

/-- C8 counterexample to the claim as stated: an integer literal element is
a literal value, but the failed string-literal parse attempt consumes it,
so evaluating the elements `5, "a"` drops the integer and returns `"a"` —
not the join `"5a"` of the elements' string values. -/
theorem c8_counterexample :
    evaluate_concat [] (fun l => l) 10
        [.litTok (.int "5"), .punct ',', .litTok (.str "a")] =
      .ok [.litTok (.str "a")] ∧
    ("a" : String) ≠ "5a" :=
  ⟨by rfl, by decide⟩

/-- Tokens of Example 5: `tomplate!("SELECT a"), " UNION ALL ",
tomplate!("SELECT b")` inside a `concat!` group. -/
def unionExampleTokens : List TokenTree :=
  [.ident "tomplate", .punct '!', .group .paren [.litTok (.str "SELECT a")],
   .punct ',', .litTok (.str " UNION ALL "), .punct ',',
   .ident "tomplate", .punct '!', .group .paren [.litTok (.str "SELECT b")]]

/-- Witness for `c8_concat_literal_join` at Example 5. -/
theorem c8_concat_literal_join_witness :
    evaluate_concat [] (fun l => l) (20 + 1) unionExampleTokens =
      .ok [.litTok (.str "SELECT a UNION ALL SELECT b")] := by
  have h := c8_concat_literal_join [] (fun l => l) 20 unionExampleTokens
    ["SELECT a", " UNION ALL ", "SELECT b"] (by rfl)
  rw [h]
  rfl

/-- C7 (amended): the eager rewriter passes through unchanged every token
that is not part of a fully-shaped recognized invocation — an evaluatable
identifier not followed by `!` is emitted literally, one followed by `!` at
the end of the stream is emitted with the `!`, groups not part of an
invocation are re-emitted with the same delimiter kind around their
recursively processed contents, and every other token is emitted unchanged
in order — with one exception: when an evaluatable identifier is followed by
`!` and then a non-group token, the identifier and `!` are re-emitted but
that single following token is consumed and dropped. -/
theorem c7_eager_passthrough (reg : Registry)
    (ord : List (String × String) → List (String × String)) (fuel : Nat)
    (s : String) (hs : is_evaluatable_mac s = true)
    (t : TokenTree) (ht : ∀ d gts, t ≠ .group d gts)
    (c : Char) (hc : c ≠ '!')
    (s2 : String) (hs2 : is_evaluatable_mac s2 = false)
    (t2 : TokenTree) (ht2 : ∀ ch, t2 ≠ .punct ch)
    (d : Delim) (gts rest : List TokenTree) (p : Char) (l : LitTok) :
    (process_eager reg ord (fuel + 1) (.ident s :: .punct '!' :: t :: rest) =
      match process_eager reg ord fuel rest with
      | .error e => .error e
      | .ok out => .ok (.ident s :: .punct '!' :: out)) ∧
    process_eager reg ord (fuel + 1) [.ident s, .punct '!'] =
      .ok [.ident s, .punct '!'] ∧
    (process_eager reg ord (fuel + 1) (.ident s :: .punct c :: rest) =
      match process_eager reg ord fuel (.punct c :: rest) with
      | .error e => .error e
      | .ok out => .ok (.ident s :: out)) ∧
    (process_eager reg ord (fuel + 1) (.ident s :: t2 :: rest) =
      match process_eager reg ord fuel (t2 :: rest) with
      | .error e => .error e
      | .ok out => .ok (.ident s :: out)) ∧
    (process_eager reg ord (fuel + 1) (.ident s2 :: rest) =
      match process_eager reg ord fuel rest with
      | .error e => .error e
      | .ok out => .ok (.ident s2 :: out)) ∧
    (process_eager reg ord (fuel + 1) (.group d gts :: rest) =
      match process_eager reg ord fuel gts with
      | .error e => .error e
      | .ok inner =>
        match process_eager reg ord fuel rest with
        | .error e => .error e
        | .ok out => .ok (.group d inner :: out)) ∧
    (process_eager reg ord (fuel + 1) (.punct p :: rest) =
      match process_eager reg ord fuel rest with
      | .error e => .error e
      | .ok out => .ok (.punct p :: out)) ∧
    (process_eager reg ord (fuel + 1) (.litTok l :: rest) =
      match process_eager reg ord fuel rest with
      | .error e => .error e
      | .ok out => .ok (.litTok l :: out)) := by
  refine ⟨?_, ?_, ?_, ?_, ?_, ?_, ?_, ?_⟩
  · cases t with
    | group d2 g2 => exact absurd rfl (ht d2 g2)
    | ident s3 => simp [process_eager, hs]
    | punct c3 => simp [process_eager, hs]
    | litTok l3 => simp [process_eager, hs]
  · simp [process_eager, hs]
  · simp [process_eager, hs, hc]
  · cases t2 with
    | punct ch => exact absurd rfl (ht2 ch)
    | ident s3 => simp [process_eager, hs]
    | litTok l3 => simp [process_eager, hs]
    | group d2 g2 => simp [process_eager, hs]
  · simp [process_eager, hs2]
  · simp [process_eager]
  · simp [process_eager]
  · simp [process_eager]

/-- C7 counterexample to the claim as stated: `tomplate ! x` re-emits the
identifier and the bang but silently drops the neighbouring token `x`. -/
theorem c7_counterexample :
    process_eager [] (fun l => l) 10
        [.ident "tomplate", .punct '!', .ident "x"] =
      .ok [.ident "tomplate", .punct '!'] ∧
    TokenTree.ident "x" ∉ [TokenTree.ident "tomplate", TokenTree.punct '!'] :=
  ⟨by rfl, by simp⟩

/-- Witness for `c7_eager_passthrough`: `concat !` followed by a literal
re-emits the identifier and bang and drops the literal. -/
theorem c7_eager_passthrough_witness :
    process_eager [] (fun l => l) (5 + 1)
        [.ident "concat", .punct '!', .litTok (.str "z")] =
      .ok [.ident "concat", .punct '!'] := by
  have h := (c7_eager_passthrough [] (fun l => l) 5 "concat" (by rfl)
    (.litTok (.str "z")) (fun d gts h => nomatch h) '?' (by decide)
    "foo" (by rfl) (.litTok (.str "y")) (fun ch h => nomatch h)
    .paren [] [] ';' (.str "a")).1
  rw [h]
  rfl

/-- C10 (amended): in `evaluate_concat` skipping is per failed parse
attempt over the token stream, not per comma-separated element, and not
only non-literal tokens are lost: once the inner eager pass has produced a
comma-separated sequence of elements each of which is a string literal, a
non-string literal chunk (an integer, float, or boolean literal, possibly a
`-` followed by a numeric literal), or a single token no literal parse
consumes, evaluation computes exactly `concatElemsResult`: the join of the
string-literal elements' values in order — a non-literal token is skipped
one token tree at a time and a non-string literal element is consumed by
the failed string-literal parse attempt, each together with one following
comma, contributing nothing — except that a trailing non-string literal
element leaves the skip branch facing an exhausted stream, and evaluation
then fails with the unexpected-end-of-input error rather than
succeeding. -/
theorem c10_concat_skip (reg : Registry)
    (ord : List (String × String) → List (String × String)) (fuel : Nat)
    (ts : List TokenTree) (es : List CElem)
    (hgood : ∀ e ∈ es, goodElem e = true)
    (hproc : process_eager reg ord fuel ts = .ok (concatTokens es)) :
    evaluate_concat reg ord (fuel + 1) ts =
      match concatElemsResult es with
      | .ok parts => .ok [.litTok (.str (String.join parts))]
      | .error e => .error e := by
  unfold evaluate_concat
  rw [hproc]
  dsimp only
  unfold concatParts
  rw [concatGo_elems es hgood _ (Nat.le_refl _)]
  cases concatElemsResult es <;> rfl

/-- C10 counterexample to the claim as stated: in `concat!(5)` the single
token `5` is parseable as an integer literal, so the claimed behaviour is
success with the join `5`; the code instead consumes the `5` inside the
failed string-literal parse attempt, the skip branch then faces an empty
stream, and evaluation fails with the unexpected-end-of-input error — the
parseable element's value is lost and evaluation does not succeed. -/
theorem c10_counterexample :
    parseLitChunk [.litTok (.int "5")] = some (.intK, "5", []) ∧
    evaluate_concat [] (fun l => l) 10 [.litTok (.int "5")] =
      .error "Unexpected end of input" :=
  ⟨by rfl, by rfl⟩

/-- Witness for `c10_concat_skip`: a non-literal identifier element is
skipped one token tree at a time, an integer element is consumed and
dropped by the failed string-literal attempt, and the remaining string
literal is collected: `foo, 5, "a"` evaluates to `"a"`. -/
theorem c10_concat_skip_witness :
    (∀ e ∈ ([.skipTok (.ident "foo"), .dropLit [.litTok (.int "5")],
        .strE "a"] : List CElem), goodElem e = true) ∧
    evaluate_concat [] (fun l => l) (10 + 1)
        [.ident "foo", .punct ',', .litTok (.int "5"), .punct ',',
         .litTok (.str "a")] =
      .ok [.litTok (.str "a")] := by
  refine ⟨by decide, ?_⟩
  have h := c10_concat_skip [] (fun l => l) 10
    [.ident "foo", .punct ',', .litTok (.int "5"), .punct ',',
     .litTok (.str "a")]
    [.skipTok (.ident "foo"), .dropLit [.litTok (.int "5")], .strE "a"]
    (by decide) (by rfl)
  rw [h]
  rfl

end Tomplate
